import Mathlib

/-!
Shallow embedding of the BeeFI library (extraction of IEEE 802.11ax
beamforming feedback information from captured WiFi frames) together with a
verification of specification claims about it.

Modelled source files:
- `src/lib/src/errors.rs`        — error enums
- `src/lib/src/he_mimo_ctrl.rs`  — HE MIMO Control header bit view
- `src/lib/src/extraction.rs`    — extraction config tables and bit unpacker
- `src/lib/src/pcap.rs`          — packet dissection
- `src/lib/src/bfa_to_bfm.rs`    — BFA to BFM matrix reconstruction
- `src/lib/src/capture.rs`       — writer workers and engine shutdown

Conventions: machine integers are `Nat` with explicit `% 2 ^ w` (or division)
where the word size matters; byte streams are `List Nat` whose elements are
`< 256` (carried as a hypothesis where needed); fallible Rust functions
return `Except`; Rust panics are modelled by `Option` (`none` = panic).
The debug-build configuration is modelled: the `#[cfg(debug_assertions)]`
sanity checks of `extraction.rs` are included.
-/

set_option maxRecDepth 10000
set_option synthInstance.maxSize 2000
set_option synthInstance.maxHeartbeats 2000000

/-- Decidable equality for `Except`, used to settle concrete runs of the
modelled fallible functions by `decide`. -/
instance {ε α : Type _} [DecidableEq ε] [DecidableEq α] : DecidableEq (Except ε α) :=
  fun a b =>
    match a, b with
    | .error e, .error f => decidable_of_iff (e = f) (by simp)
    | .ok x, .ok y => decidable_of_iff (x = y) (by simp)
    | .error _, .ok _ => isFalse (by simp)
    | .ok _, .error _ => isFalse (by simp)

namespace BeeFI

/-- Error enum `BfaExtractionError` from `src/lib/src/errors.rs`. -/
inductive BfaExtractionError where
  | insufficientBitsize (required available : ℕ)
  | invalidBitfieldSize (given allowed : ℕ)
  | invalidAntennaConfig (nr_index nc_index : ℕ)
  | invalidFeedbackType (fb : ℕ)
deriving DecidableEq

/-- Error enum `BfmConversionError` from `src/lib/src/errors.rs` (the
`InvalidAntennaConfig` variant there is dead code; `From<BfaExtractionError>`
wraps into `Extraction`). -/
inductive BfmConversionError where
  | invalidAntennaConfig (nr_index nc_index : ℕ)
  | extraction (e : BfaExtractionError)
deriving DecidableEq

/-- `CompressedAngleBitSizes` from `src/lib/src/extraction.rs`. -/
structure CompressedAngleBitSizes where
  phi_bit : ℕ
  psi_bit : ℕ
deriving DecidableEq

/-- `get_angle_bit_sizes` from `src/lib/src/extraction.rs` (lines 57-77).
The Rust `match` on the pair of `u8` values is rendered as the equivalent
sequential comparison chain. -/
def get_angle_bit_sizes (codebook_info feedback_type : ℕ) :
    Except BfaExtractionError CompressedAngleBitSizes :=
  if codebook_info = 0 ∧ feedback_type = 0 then .ok ⟨4, 2⟩
  else if codebook_info = 0 ∧ feedback_type = 1 then .ok ⟨7, 5⟩
  else if codebook_info = 1 ∧ feedback_type = 0 then .ok ⟨6, 4⟩
  else if codebook_info = 1 ∧ feedback_type = 1 then .ok ⟨9, 7⟩
  else .error (.invalidFeedbackType feedback_type)

/-- The two compressed angle kinds (`Angles` in `extraction.rs`). -/
inductive Angles where
  | Phi
  | Psi
deriving DecidableEq

/-- The static `ANGLE_PATTERNS` table from `src/lib/src/extraction.rs`
(lines 48-55), with the same order and 1-based `(kind, i, j)` triples. -/
def ANGLE_PATTERNS : List (List (Angles × ℕ × ℕ)) :=
  [ [(.Phi,1,1), (.Psi,2,1)],
    [(.Phi,1,1), (.Phi,2,1), (.Psi,2,1), (.Psi,3,1)],
    [(.Phi,1,1), (.Phi,2,1), (.Psi,2,1), (.Psi,3,1), (.Phi,2,2), (.Psi,3,2)],
    [(.Phi,1,1), (.Phi,2,1), (.Phi,3,1), (.Psi,2,1), (.Psi,3,1), (.Psi,4,1)],
    [(.Phi,1,1), (.Phi,2,1), (.Phi,3,1), (.Psi,2,1), (.Psi,3,1), (.Psi,4,1),
     (.Phi,2,2), (.Phi,3,2), (.Psi,3,2), (.Psi,4,2)],
    [(.Phi,1,1), (.Phi,2,1), (.Phi,3,1), (.Psi,2,1), (.Psi,3,1), (.Psi,4,1),
     (.Phi,2,2), (.Phi,3,2), (.Psi,3,2), (.Psi,4,2), (.Phi,3,3), (.Psi,4,3)] ]

/-- `ExtractionConfig` from `src/lib/src/extraction.rs`. -/
structure ExtractionConfig where
  bitfield_pattern : List ℕ
  num_subcarrier : ℕ
deriving DecidableEq

/-- `ExtractionConfig::get_pattern` from `src/lib/src/extraction.rs`
(lines 84-97); the Rust `match` over `(nr_index, nc_index)` as a comparison
chain. -/
def ExtractionConfig.get_pattern (nr_index nc_index : ℕ) :
    Except BfaExtractionError (List (Angles × ℕ × ℕ)) :=
  if nr_index = 1 ∧ (nc_index = 0 ∨ nc_index = 2) then .ok (ANGLE_PATTERNS.getD 0 [])
  else if nr_index = 2 ∧ nc_index = 0 then .ok (ANGLE_PATTERNS.getD 1 [])
  else if nr_index = 2 ∧ (nc_index = 1 ∨ nc_index = 2) then .ok (ANGLE_PATTERNS.getD 2 [])
  else if nr_index = 3 ∧ nc_index = 0 then .ok (ANGLE_PATTERNS.getD 3 [])
  else if nr_index = 3 ∧ nc_index = 1 then .ok (ANGLE_PATTERNS.getD 4 [])
  else if nr_index = 3 ∧ (nc_index = 2 ∨ nc_index = 3) then .ok (ANGLE_PATTERNS.getD 5 [])
  else .error (.invalidAntennaConfig nr_index nc_index)

/-- `HeMimoControl::from_buf` from `src/lib/src/he_mimo_ctrl.rs` (lines
51-60): assemble the 40-bit little-endian control value from the first five
bytes; indexing `buf[0]`..`buf[4]` panics when the buffer is shorter. -/
def HeMimoControl.from_buf (buf : List ℕ) : Option ℕ := do
  let b0 ← buf.get? 0
  let b1 ← buf.get? 1
  let b2 ← buf.get? 2
  let b3 ← buf.get? 3
  let b4 ← buf.get? 4
  some ((b0 + b1 * 2 ^ 8 + b2 * 2 ^ 16 + b3 * 2 ^ 24 + b4 * 2 ^ 32) % 2 ^ 40)

/-- Bit field `nc_index` (bits 0-2) of the HE MIMO Control value. -/
def HeMimoControl.nc_index (v : ℕ) : ℕ := v % 2 ^ 3

/-- Bit field `nr_index` (bits 3-5). -/
def HeMimoControl.nr_index (v : ℕ) : ℕ := v / 2 ^ 3 % 2 ^ 3

/-- Bit field `bandwidth` (bits 6-7), the index of the `Bandwidth` enum. -/
def HeMimoControl.bandwidth (v : ℕ) : ℕ := v / 2 ^ 6 % 2 ^ 2

/-- Bit field `grouping` (bit 8). -/
def HeMimoControl.grouping (v : ℕ) : ℕ := v / 2 ^ 8 % 2 ^ 1

/-- Bit field `codebook_info` (bit 9). -/
def HeMimoControl.codebook_info (v : ℕ) : ℕ := v / 2 ^ 9 % 2 ^ 1

/-- Bit field `feedback_type` (bits 10-11). -/
def HeMimoControl.feedback_type (v : ℕ) : ℕ := v / 2 ^ 10 % 2 ^ 2

/-- Bit field `remaining_feedback_segments` (bits 12-14). -/
def HeMimoControl.remaining_feedback_segments (v : ℕ) : ℕ := v / 2 ^ 12 % 2 ^ 3

/-- Bit field `first_feedback_segments` (bit 15). -/
def HeMimoControl.first_feedback_segments (v : ℕ) : ℕ := v / 2 ^ 15 % 2 ^ 1

/-- Bit field `ru_start_index` (bits 16-22). -/
def HeMimoControl.ru_start_index (v : ℕ) : ℕ := v / 2 ^ 16 % 2 ^ 7

/-- Bit field `ru_end_index` (bits 23-29). -/
def HeMimoControl.ru_end_index (v : ℕ) : ℕ := v / 2 ^ 23 % 2 ^ 7

/-- Bit field `dialog_token_number` (bits 30-35). -/
def HeMimoControl.dialog_token_number (v : ℕ) : ℕ := v / 2 ^ 30 % 2 ^ 6

/-- Bit field `reserved_padding` (bits 36-39). -/
def HeMimoControl.reserved_padding (v : ℕ) : ℕ := v / 2 ^ 36 % 2 ^ 4

/-- `Bandwidth::to_mhz` from `src/lib/src/he_mimo_ctrl.rs`:
`(2 << index) * 10`. -/
def Bandwidth.to_mhz (bw : ℕ) : ℕ := 2 * 2 ^ bw * 10

/-- `ExtractionConfig::from_he_mimo_ctrl` from `src/lib/src/extraction.rs`
(lines 105-140), on the 40-bit control value.  The subcarrier table is the
`match` on `(grouping, bandwidth)`; its default branch is the source's
`unreachable!` (grouping is one bit, bandwidth two bits, so it cannot be
taken on values produced by `HeMimoControl.from_buf`). -/
def ExtractionConfig.from_he_mimo_ctrl (v : ℕ) :
    Except BfaExtractionError ExtractionConfig := do
  let phi_psi ← get_angle_bit_sizes (HeMimoControl.codebook_info v)
    (HeMimoControl.feedback_type v)
  let pat ← ExtractionConfig.get_pattern (HeMimoControl.nr_index v)
    (HeMimoControl.nc_index v)
  let bitfield_pattern := pat.map (fun p => match p.1 with
    | .Phi => phi_psi.phi_bit
    | .Psi => phi_psi.psi_bit)
  let num_sub : ℕ :=
    match HeMimoControl.grouping v, HeMimoControl.bandwidth v with
    | 0, 0 => 64
    | 0, 1 => 122
    | 0, 2 => 250
    | 0, 3 => 500
    | 1, 0 => 50
    | 1, 1 => 32
    | 1, 2 => 64
    | 1, 3 => 160
    | _, _ => 0
  .ok ⟨bitfield_pattern, num_sub⟩

/-- `sanity_check_extraction` from `src/lib/src/extraction.rs` (lines
145-177), compiled under `#[cfg(debug_assertions)]`.  Note the order: the
bit-count check comes first, the width check second. -/
def sanity_check_extraction (bitfield_pattern : List ℕ) (num_chunks : ℕ)
    (byte_stream_len : ℕ) : Except BfaExtractionError Unit :=
  let total_bits_per_chunk := bitfield_pattern.sum
  let total_bits_needed := total_bits_per_chunk * num_chunks
  if byte_stream_len * 8 < total_bits_needed then
    .error (.insufficientBitsize total_bits_needed (byte_stream_len * 8))
  else if bitfield_pattern.any (fun x => 9 < x) then
    .error (.invalidBitfieldSize (bitfield_pattern.foldr max 0) 9)
  else
    .ok ()

/-- The mutable state of the bit-window loop of `extract_bitfields`:
the `u16` sliding window, the bit offset past the last consumed bit, and the
stream offset past the window edge. -/
structure ExtractState where
  bit_window : ℕ
  window_offset : ℕ
  curr_byte : ℕ
deriving DecidableEq

/-- The `while window_offset + bit_length > 16` refill loop of
`extract_bitfields` (lines 233-239 of `src/lib/src/extraction.rs`).  Each
iteration does `bit_window = (bit_window >> 8) | (next_byte << 8)` (the `or`
of the disjoint halves is their sum since `next_byte` is a byte),
`window_offset -= 8` and `curr_byte += 1`.  `none` models a panic: an
out-of-bounds `byte_stream[curr_byte]`, or the debug-build underflow of
`window_offset -= 8`.  The loop runs at most `window_offset / 8 + 1` times,
so the structural fuel argument (called with `window_offset + 1`) never
reaches `0` before the loop exits. -/
def refill (stream : List ℕ) (bit_length : ℕ) : ℕ → ExtractState → Option ExtractState
  | 0, _ => none
  | fuel + 1, s =>
    if s.window_offset + bit_length > 16 then
      if 8 ≤ s.window_offset then
        match stream.get? s.curr_byte with
        | none => none
        | some next_byte =>
          refill stream bit_length fuel
            ⟨s.bit_window / 2 ^ 8 + next_byte * 2 ^ 8, s.window_offset - 8, s.curr_byte + 1⟩
      else none
    else some s

/-- One iteration of the inner `for` loop of `extract_bitfields`: refill the
window as needed, then extract `(bit_window >> window_offset) & ((1 <<
bit_length) - 1)` and advance the offset. -/
def extract_field (stream : List ℕ) (bit_length : ℕ) (s : ExtractState) :
    Option (ℕ × ExtractState) :=
  match refill stream bit_length (s.window_offset + 1) s with
  | none => none
  | some s' =>
    some (s'.bit_window / 2 ^ s'.window_offset % 2 ^ bit_length,
      ⟨s'.bit_window, s'.window_offset + bit_length, s'.curr_byte⟩)

/-- The inner `for (i, &bit_length) in bitfield_pattern` loop of
`extract_bitfields`, building one chunk. -/
def extract_chunk (stream : List ℕ) : List ℕ → ExtractState → Option (List ℕ × ExtractState)
  | [], s => some ([], s)
  | w :: ws, s =>
    match extract_field stream w s with
    | none => none
    | some (v, s') =>
      match extract_chunk stream ws s' with
      | none => none
      | some (vs, s'') => some (v :: vs, s'')

/-- The outer `for _ in 0..num_chunks` loop of `extract_bitfields`. -/
def extract_chunks (stream : List ℕ) (pat : List ℕ) :
    ℕ → ExtractState → Option (List (List ℕ) × ExtractState)
  | 0, s => some ([], s)
  | n + 1, s =>
    match extract_chunk stream pat s with
    | none => none
    | some (c, s') =>
      match extract_chunks stream pat n s' with
      | none => none
      | some (cs, s'') => some (c :: cs, s'')

/-- `extract_bitfields` from `src/lib/src/extraction.rs` (lines 200-256),
debug configuration: the sanity check runs first; then the window is seeded
with `u16::from_le_bytes([byte_stream[0], byte_stream[1]])` — an unchecked
indexing that panics (`none`) when the stream is shorter than two bytes. -/
def extract_bitfields (byte_stream : List ℕ) (bitfield_pattern : List ℕ)
    (num_chunks : ℕ) : Option (Except BfaExtractionError (List (List ℕ))) :=
  match sanity_check_extraction bitfield_pattern num_chunks byte_stream.length with
  | .error e => some (.error e)
  | .ok _ =>
    match byte_stream.get? 0, byte_stream.get? 1 with
    | some b0, some b1 =>
      match extract_chunks byte_stream bitfield_pattern num_chunks ⟨b0 + b1 * 2 ^ 8, 0, 2⟩ with
      | none => none
      | some (result, _) => some (.ok result)
    | _, _ => none

/-- `extract_bfa` from `src/lib/src/extraction.rs` (lines 263-272). -/
def extract_bfa (bfa_payload : List ℕ) (cfg : ExtractionConfig) :
    Option (Except BfaExtractionError (List (List ℕ))) :=
  extract_bitfields bfa_payload cfg.bitfield_pattern cfg.num_subcarrier

/-- A byte stream as a single natural number, little-endian: byte `i`
occupies bits `8*i .. 8*i+7`. -/
def streamNat : List ℕ → ℕ
  | [] => 0
  | b :: bs => b + 2 ^ 8 * streamNat bs

/-- Re-pack a list of `(width, value)` fields into a single natural number,
first field in the lowest bits — the inverse direction of the unpacker. -/
def repackFields : List (ℕ × ℕ) → ℕ
  | [] => 0
  | (w, v) :: rest => v + 2 ^ w * repackFields rest

/-- Re-pack extracted chunk rows against the width pattern, first chunk in
the lowest bits. -/
def repackChunks (pat : List ℕ) : List (List ℕ) → ℕ
  | [] => 0
  | c :: cs => repackFields (pat.zip c) + 2 ^ pat.sum * repackChunks pat cs

/-- Number of stream bits consumed so far by the bit-window loop. -/
def consumedBits (s : ExtractState) : ℕ :=
  8 * (s.curr_byte - 2) + s.window_offset

/-- Invariant of the bit-window loop: the `u16` window holds the two stream
bytes `curr_byte - 2` and `curr_byte - 1`, the offset is in range, and the
byte cursor is within the stream. -/
def WindowInv (stream : List ℕ) (s : ExtractState) : Prop :=
  s.bit_window = streamNat stream / 2 ^ (8 * (s.curr_byte - 2)) % 2 ^ 16 ∧
  s.window_offset ≤ 16 ∧ 2 ≤ s.curr_byte ∧ s.curr_byte ≤ stream.length

/-- `BfiMetadata` from `src/lib/src/bfa_data.rs`. -/
structure BfiMetadata where
  bandwidth : ℕ
  nr_index : ℕ
  nc_index : ℕ
  codebook_info : ℕ
  feedback_type : ℕ
deriving DecidableEq

/-- `BfiMetadata::from_mimo_ctrl_header` from `src/lib/src/bfa_data.rs`,
on the 40-bit control value. -/
def BfiMetadata.from_mimo_ctrl_header (v : ℕ) : BfiMetadata :=
  ⟨Bandwidth.to_mhz (HeMimoControl.bandwidth v), HeMimoControl.nr_index v,
   HeMimoControl.nc_index v, HeMimoControl.codebook_info v,
   HeMimoControl.feedback_type v⟩

/-- `BfaData` from `src/lib/src/bfa_data.rs` (with the `bfi_metadata`
feature on, as built by default).  The `f64` timestamp is modelled in `ℚ`;
none of the verified claims depend on float rounding of timestamps. -/
structure BfaData where
  metadata : BfiMetadata
  timestamp : ℚ
  token_number : ℕ
  bfa_angles : List (List ℕ)
deriving DecidableEq

/-- `extract_from_packet` from `src/lib/src/pcap.rs` (lines 11-42).  A
packet is a timestamp (`tv_sec`, `tv_usec`) plus its byte `data`.  `none`
models a panic: short packets (slice or index out of bounds, or the debug
underflow of `packet.len() - 4`), and — critically — the
`extract_bfa(..).expect("BFA extraction failed")` call, which panics when
bit extraction reports an error instead of returning it. -/
def extract_from_packet (tv_sec tv_usec : ℤ) (data : List ℕ) :
    Option (Except BfaExtractionError BfaData) :=
  let timestamp_secs : ℚ := (tv_sec : ℚ) + (tv_usec : ℚ) * (1 / 1000000)
  match data.get? 2, data.get? 3 with
  | some b2, some b3 =>
    let header_length := b2 + b3 * 2 ^ 8
    let mimo_ctrl_start := header_length + 26
    match HeMimoControl.from_buf (data.drop mimo_ctrl_start) with
    | none => none
    | some v =>
      match ExtractionConfig.from_he_mimo_ctrl v with
      | .error e => some (.error e)
      | .ok cfg =>
        let bfa_start := mimo_ctrl_start + 7
        if 4 ≤ data.length ∧ bfa_start ≤ data.length - 4 then
          let bfa_data := (data.take (data.length - 4)).drop bfa_start
          match extract_bfa bfa_data cfg with
          | none => none
          | some (.error _) => none
          | some (.ok bfa_angles) =>
            some (.ok ⟨BfiMetadata.from_mimo_ctrl_header v, timestamp_secs,
              HeMimoControl.dialog_token_number v, bfa_angles⟩)
        else none
  | _, _ => none

/-- Timestamp-free view of a dissected record, used to state concrete
dissection results decidably (timestamps are `f64` sums in the source; the
error-policy claims do not concern float arithmetic). -/
def BfaData.core (d : BfaData) : BfiMetadata × ℕ × List (List ℕ) :=
  (d.metadata, d.token_number, d.bfa_angles)

/-- The dissection portion of the `harvest` capture loop from
`src/lib/src/capture.rs` (lines 292-303): each packet is dissected with
`extract_from_packet`; a returned error drops the packet (logged at error
level) and the loop continues with the next one; a panic (`none`)
propagates and kills the capture thread. -/
def harvest_dissect : List (ℤ × ℤ × List ℕ) → Option (List BfaData)
  | [] => some []
  | (sec, usec, data) :: rest =>
    match extract_from_packet sec usec data with
    | none => none
    | some (.error _) => harvest_dissect rest
    | some (.ok d) =>
      match harvest_dissect rest with
      | none => none
      | some ds => some (d :: ds)

/-- A 40-byte frame whose HE MIMO Control bytes are
`[0x19, 0x82, 0x00, 0xC4, 0x0D]` (the valid 4x2 configuration of S2: 50
bits per subcarrier, 64 subcarriers) but whose BFA payload is only 3 bytes
long, so bit extraction reports `InsufficientBitsize`. -/
def c6_panic_packet : List ℕ :=
  List.replicate 26 0 ++ [0x19, 0x82, 0x00, 0xC4, 0x0D] ++ List.replicate 9 0

/-- A 31-byte frame whose HE MIMO Control bytes are all zero:
`(nr_index, nc_index) = (0, 0)` is an invalid antenna configuration. -/
def c6_bad_config_packet : List ℕ := List.replicate 31 0

/-- A 61-byte frame with HE MIMO Control `[72, 1, 0, 64, 1]`
(`nr_index = 1`, `nc_index = 0`, 40 MHz, grouping 1, codebook 0, feedback 0,
token 5): widths `[4, 2]`, 32 subcarriers, 24 payload bytes — a valid frame
whose angles are all zero. -/
def c6_good_packet : List ℕ :=
  List.replicate 26 0 ++ [72, 1, 0, 64, 1] ++ List.replicate 30 0

/-- `BATCH_SIZE` from `src/lib/src/capture.rs` (line 27): "once this
critical size is reached, a batch is considered sufficiently big to be
commited to the writer". -/
def BATCH_SIZE : ℕ := 1000

/-- One iteration of the `while let Ok(bfi_data) = rx.recv()` loop shared by
`write_bfa_packets_to_file` and `write_bfm_packets_to_file`
(`src/lib/src/capture.rs` lines 363-388 and 395-420): push the received
record, then `if packet_buffer.len() <= BATCH_SIZE { continue; }`, else
write the whole buffer as one batch and clear it.  The accumulator holds
(batches written so far, current buffer). -/
def writer_step {α : Type _} (acc : List (List α) × List α) (r : α) :
    List (List α) × List α :=
  let packet_buffer := acc.2 ++ [r]
  if packet_buffer.length ≤ BATCH_SIZE then (acc.1, packet_buffer)
  else (acc.1 ++ [packet_buffer], [])

/-- The receive loop of a writer worker over the whole sequence of records
delivered on its channel before closure. -/
def writer_loop {α : Type _} (msgs : List α) : List (List α) × List α :=
  msgs.foldl writer_step ([], [])

/-- A writer worker run to completion (error-free writer): the receive loop
followed by the residual flush on channel closure (`if packet_buffer.is_empty
{ return; }` then one final `add_batch`).  Returns the list of batches
written to the file. -/
def write_packets_to_file {α : Type _} (msgs : List α) : List (List α) :=
  let (batches, packet_buffer) := writer_loop msgs
  if packet_buffer.isEmpty then batches else batches ++ [packet_buffer]

/-- `apply_d_inplace` from `src/lib/src/bfa_to_bfm.rs` (lines 83-88): right
multiplication by the diagonal matrix that is the identity except for
`exp(i*phase)` at `(pos, pos)` — column `pos` is scaled in place.  The
accumulator matrix is modelled as a function of (row, column); entries
outside the `num_receive` square are never read by `to_bfm`. -/
noncomputable def apply_d_inplace (acc : ℕ → ℕ → ℂ) (pos : ℕ) (phase : ℝ) :
    ℕ → ℕ → ℂ :=
  fun r c => if c = pos then acc r c * Complex.exp (Complex.I * phase) else acc r c

/-- `apply_givens_inplace` from `src/lib/src/bfa_to_bfm.rs` (lines 107-116):
right multiplication by the transposed Givens rotation acting on columns
`row_idx` and `col_idx`.  Both temporaries are read before either column is
written; the `col_idx` test comes first here because the source's second
write wins if the two indices coincide (they never do in the patterns). -/
noncomputable def apply_givens_inplace (acc : ℕ → ℕ → ℂ) (row_idx col_idx : ℕ)
    (phase : ℝ) : ℕ → ℕ → ℂ :=
  fun r c =>
    if c = col_idx then
      Real.sin phase * acc r row_idx + Real.cos phase * acc r col_idx
    else if c = row_idx then
      Real.cos phase * acc r row_idx - Real.sin phase * acc r col_idx
    else acc r c

/-- The per-subcarrier fold of `to_bfm` (lines 33-54 of
`src/lib/src/bfa_to_bfm.rs`): walk the angle pattern together with the
subcarrier's quantized angles, applying the D or (transposed) Givens factor
for each entry.  Indices in the pattern are 1-based and converted here, as
in the source.  The `(_ :: _, [])` case is unreachable when the angle row is
long enough (`to_bfm` guards for that; the source would panic). -/
noncomputable def run_pattern (const1_phi const2_phi const1_psi const2_psi : ℝ) :
    List (Angles × ℕ × ℕ) → List ℕ → (ℕ → ℕ → ℂ) → (ℕ → ℕ → ℂ)
  | [], _, acc => acc
  | _ :: _, [], acc => acc
  | (Angles.Phi, nr, _) :: ps, q :: qs, acc =>
    run_pattern const1_phi const2_phi const1_psi const2_psi ps qs
      (apply_d_inplace acc (nr - 1) ((q : ℝ) * const1_phi + const2_phi))
  | (Angles.Psi, nr, nc) :: ps, q :: qs, acc =>
    run_pattern const1_phi const2_phi const1_psi const2_psi ps qs
      (apply_givens_inplace acc (nr - 1) (nc - 1) ((q : ℝ) * const1_psi + const2_psi))

/-- `BfmData` from `src/lib/src/bfm_data.rs`: metadata, timestamp, token,
and the `Array3<Complex64>` feedback matrix of shape
`(num_receive, num_spatial, num_subcarriers)`, modelled as its dimensions
plus an entry function. -/
structure BfmData where
  metadata : BfiMetadata
  timestamp : ℚ
  token_number : ℕ
  num_receive : ℕ
  num_spatial : ℕ
  num_subcarriers : ℕ
  feedback_matrix : ℕ → ℕ → ℕ → ℂ

/-- `to_bfm` from `src/lib/src/bfa_to_bfm.rs` (lines 14-69).  The pattern
and bit sizes are fetched (errors wrap into `BfmConversionError` via
`From`); the four quantization constants are `π / 2^(phi_bit-1)`,
`π / 2^phi_bit`, `π / 2^(psi_bit+1)`, `π / 2^(psi_bit+2)`; each
subcarrier's matrix is the identity-seeded pattern fold, truncated to the
first `num_spatial` columns (the slice `0..num_spatial`).  `Ok none` models
the source's panic when an angle row is shorter than the pattern
(`inner_angles[i]` out of bounds). -/
noncomputable def to_bfm (bfa : BfaData) : Except BfmConversionError (Option BfmData) :=
  match ExtractionConfig.get_pattern bfa.metadata.nr_index bfa.metadata.nc_index with
  | .error e => .error (.extraction e)
  | .ok pat =>
    match get_angle_bit_sizes bfa.metadata.codebook_info bfa.metadata.feedback_type with
    | .error e => .error (.extraction e)
    | .ok bitsizes =>
      let const1_phi : ℝ := Real.pi / 2 ^ (bitsizes.phi_bit - 1)
      let const2_phi : ℝ := Real.pi / 2 ^ bitsizes.phi_bit
      let const1_psi : ℝ := Real.pi / 2 ^ (bitsizes.psi_bit + 1)
      let const2_psi : ℝ := Real.pi / 2 ^ (bitsizes.psi_bit + 2)
      let num_receive := bfa.metadata.nr_index + 1
      let num_spatial := bfa.metadata.nc_index + 1
      let n_subcarriers := bfa.bfa_angles.length
      if bfa.bfa_angles.all (fun row => pat.length ≤ row.length) then
        .ok (some
          { metadata := bfa.metadata
            timestamp := bfa.timestamp
            token_number := bfa.token_number
            num_receive := num_receive
            num_spatial := num_spatial
            num_subcarriers := n_subcarriers
            feedback_matrix := fun r c k =>
              if r < num_receive ∧ c < num_spatial ∧ k < n_subcarriers then
                run_pattern const1_phi const2_phi const1_psi const2_psi pat
                  (bfa.bfa_angles.getD k []) (fun i j => if i = j then 1 else 0) r c
              else 0 })
      else .ok none

/-- Bookkeeping for the last-row-real invariant: `safeSteps pat S` walks the
pattern keeping the set `S` of columns whose last-row entry is still zero;
a `Phi` step must hit a zero column (else the phase would leave the real
axis), and a `Givens` step keeps both columns in `S` when both are there,
otherwise both leave `S`. -/
def safeSteps : List (Angles × ℕ × ℕ) → List ℕ → Bool
  | [], _ => true
  | (Angles.Phi, nr, _) :: ps, S => decide ((nr - 1) ∈ S) && safeSteps ps S
  | (Angles.Psi, nr, nc) :: ps, S =>
    if (nr - 1) ∈ S ∧ (nc - 1) ∈ S then safeSteps ps S
    else safeSteps ps (S.filter (fun x => decide (x ≠ nr - 1 ∧ x ≠ nc - 1)))

/-- The BFA record of test `test_to_bfm_frame1` (and spec scenario S4):
metadata `(bw=20, nr=3, nc=1, cb=1, fb=0)` with three subcarriers of ten
angles each. -/
def frame1_bfa : BfaData :=
  ⟨⟨20, 3, 1, 1, 0⟩, 0, 0,
   [[18, 33, 43, 15, 12, 9, 31, 15, 12, 1],
    [19, 33, 43, 14, 12, 9, 31, 16, 11, 1],
    [26, 34, 43, 15, 12, 9, 25, 16, 12, 1]]⟩

/-- The BFM record produced by `to_bfm` on `frame1_bfa` (the conversion
succeeds on this input; the fallback arm is never taken). -/
noncomputable def frame1_bfm : BfmData :=
  match to_bfm frame1_bfa with
  | .ok (some b) => b
  | _ => ⟨⟨0, 0, 0, 0, 0⟩, 0, 0, 0, 0, 0, fun _ _ _ => 0⟩

/-- Scale of the fixed-point ball arithmetic used to enclose the real
quantities of the BFM reconstruction: midpoints and radii are integers
denoting multiples of `1 / 2^48`.  Integer arithmetic kernel-computes, so
concrete enclosures can be settled by `decide`. -/
def ballScale : ℤ := 2 ^ 48

/-- An interval enclosure `[mid - rad, mid + rad] / ballScale`. -/
structure Ball where
  mid : ℤ
  rad : ℤ
deriving DecidableEq

/-- `x` lies in the ball `b` (both scaled down by `ballScale`). -/
def inBall (x : ℝ) (b : Ball) : Prop :=
  |x - (b.mid : ℝ) / (ballScale : ℝ)| ≤ (b.rad : ℝ) / (ballScale : ℝ)

/-- Absolute value on `ℤ` through `natAbs` (kernel-computable). -/
def iabs (a : ℤ) : ℤ := (a.natAbs : ℤ)

/-- Ball addition (exact). -/
def Ball.add (a b : Ball) : Ball := ⟨a.mid + b.mid, a.rad + b.rad⟩

/-- Ball subtraction (exact). -/
def Ball.sub (a b : Ball) : Ball := ⟨a.mid - b.mid, a.rad + b.rad⟩

/-- Ball multiplication with floor rounding of the midpoint back to scale
and a conservative `+2` on the radius (one unit for each floor). -/
def Ball.mul (a b : Ball) : Ball :=
  ⟨a.mid * b.mid / ballScale,
   (iabs a.mid * b.rad + iabs b.mid * a.rad + a.rad * b.rad) / ballScale + 2⟩

/-- A complex enclosure: one ball per component. -/
structure CBall where
  re : Ball
  im : Ball
deriving DecidableEq

/-- `z` lies in the complex ball `b` componentwise. -/
def inCBall (z : ℂ) (b : CBall) : Prop := inBall z.re b.re ∧ inBall z.im b.im

/-- Complex-ball addition. -/
def CBall.add (a b : CBall) : CBall := ⟨a.re.add b.re, a.im.add b.im⟩

/-- Complex-ball subtraction. -/
def CBall.sub (a b : CBall) : CBall := ⟨a.re.sub b.re, a.im.sub b.im⟩

/-- Complex-ball multiplication. -/
def CBall.mul (a b : CBall) : CBall :=
  ⟨(a.re.mul b.re).sub (a.im.mul b.im), (a.re.mul b.im).add (a.im.mul b.re)⟩

/-- Real-ball scalar times complex ball. -/
def CBall.rsmul (r : Ball) (z : CBall) : CBall := ⟨r.mul z.re, r.mul z.im⟩

/-- Enclosure of `cos (π/64)` (proved sound below via the nested-radical
closed form `cos (π/2^6) = sqrtTwoAddSeries 0 5 / 2`). -/
def cos_step : Ball := ⟨281135927774060, 2⟩

/-- Enclosure of `sin (π/64)` (proved sound below via
`sin (π/2^6) = √(2 - sqrtTwoAddSeries 0 4) / 2`). -/
def sin_step : Ball := ⟨13811322488555, 2⟩

/-- Enclosures of `(cos (k·π/64), sin (k·π/64))` by the angle-addition
recurrence.  All quantized angles of the S4 scenario are odd multiples of
`π/64`: with bit sizes `(6, 4)` both `q·π/32 + π/64` (Phi) and the same
formula for Psi equal `(2q+1)·π/64`. -/
def csb : ℕ → Ball × Ball
  | 0 => (⟨ballScale, 0⟩, ⟨0, 0⟩)
  | k + 1 =>
    let p := csb k
    ((p.1.mul cos_step).sub (p.2.mul sin_step),
     (p.2.mul cos_step).add (p.1.mul sin_step))

/-- Ball version of `apply_d_inplace`. -/
def ball_apply_d (m : ℕ → ℕ → CBall) (pos : ℕ) (e : CBall) : ℕ → ℕ → CBall :=
  fun r c => if c = pos then (m r c).mul e else m r c

/-- Ball version of `apply_givens_inplace`. -/
def ball_apply_givens (m : ℕ → ℕ → CBall) (row_idx col_idx : ℕ)
    (cs : Ball × Ball) : ℕ → ℕ → CBall :=
  fun r c =>
    if c = col_idx then
      (CBall.rsmul cs.2 (m r row_idx)).add (CBall.rsmul cs.1 (m r col_idx))
    else if c = row_idx then
      (CBall.rsmul cs.1 (m r row_idx)).sub (CBall.rsmul cs.2 (m r col_idx))
    else m r c

/-- Ball version of `run_pattern`, specialised to bit sizes `(6, 4)`:
each quantized angle `q` contributes the rotation pair `csb (2q+1)`. -/
def ball_run : List (Angles × ℕ × ℕ) → List ℕ → (ℕ → ℕ → CBall) → (ℕ → ℕ → CBall)
  | [], _, m => m
  | _ :: _, [], m => m
  | (Angles.Phi, nr, _) :: ps, q :: qs, m =>
    ball_run ps qs (ball_apply_d m (nr - 1) ⟨(csb (2 * q + 1)).1, (csb (2 * q + 1)).2⟩)
  | (Angles.Psi, nr, nc) :: ps, q :: qs, m =>
    ball_run ps qs (ball_apply_givens m (nr - 1) (nc - 1) (csb (2 * q + 1)))

/-- Ball enclosure of the complex identity matrix. -/
def ball_eye : ℕ → ℕ → CBall :=
  fun i j => if i = j then ⟨⟨ballScale, 0⟩, ⟨0, 0⟩⟩ else ⟨⟨0, 0⟩, ⟨0, 0⟩⟩

/-- Pointwise enclosure of a complex matrix by a ball matrix. -/
def CMatch (A : ℕ → ℕ → ℂ) (m : ℕ → ℕ → CBall) : Prop :=
  ∀ r c, inCBall (A r c) (m r c)

/-- Decidable certificate that every real in the ball `b` is within
`10^-6` of `p / 10^19` (denominators cleared). -/
def within_tol (b : Ball) (p : ℤ) : Prop :=
  iabs (b.mid * 10 ^ 19 - p * ballScale) * 10 ^ 6 + b.rad * 10 ^ 19 * 10 ^ 6 ≤
    ballScale * 10 ^ 19

/-- Decidable certificate that every real in the ball `b` is farther than
`10^-6` from `p / 10^19`. -/
def beyond_tol (b : Ball) (p : ℤ) : Prop :=
  ballScale * 10 ^ 19 <
    iabs (b.mid * 10 ^ 19 - p * ballScale) * 10 ^ 6 - b.rad * 10 ^ 19 * 10 ^ 6

instance (b : Ball) (p : ℤ) : Decidable (within_tol b p) :=
  inferInstanceAs (Decidable (_ ≤ _))

instance (b : Ball) (p : ℤ) : Decidable (beyond_tol b p) :=
  inferInstanceAs (Decidable (_ < _))

/-- The full-precision expected real parts for the S4 / Frame-1 scenario
(the hard-coded table of `test_to_bfm_frame1`), as integers scaled by
`10^19`; indexed `[k][r][c]` (subcarrier, row, column). -/
def frame1_expected_re_table : List (List (List ℤ)) :=
  [[[-23926619729460947, -222597335551529550],
    [-1982738211742236500, -303488277447734200],
    [-2398058800386833300, 3241586226783822000],
    [8032075314806448000, 874072415809037700]],
   [[-99202650696315320, -53443411281670070],
    [-1963643358888199600, -618683990454096940],
    [-2398058800386833300, 3257613484756119400],
    [8032075314806448000, 874072415809037700]],
   [[-84461812032265870, -1054189158348654400],
    [-1944362823942826000, -2006722704845437000],
    [-2398058800386833300, 3373235943827392000],
    [8032075314806448000, 874072415809037700]]]

/-- The full-precision expected imaginary parts, scaled by `10^19`;
indexed `[k][r][c]`. -/
def frame1_expected_im_table : List (List (List ℤ)) :=
  [[[95520420349176560, 3329511838786530000],
    [-294111430668801270, 8790579124979945000],
    [-5070269336374148000, -475952729534706850],
    [0, 0]],
   [[277252835230973500, 4421263127568569300],
    [-291278976813798300, 8286636523397674000],
    [-5070269336374148000, -149710398762286650],
    [0, 0]],
   [[50624461909118550, 3444517112734241700],
    [-487037533278420750, 8415181571491093000],
    [-5070269336374148000, -197602789424535800],
    [0, 0]]]

/-- Expected real part of `V[r, c, k]`, scaled by `10^19`. -/
def frame1_expected_re (r c k : ℕ) : ℤ :=
  ((frame1_expected_re_table.getD k []).getD r []).getD c 0

/-- Expected imaginary part of `V[r, c, k]`, scaled by `10^19`. -/
def frame1_expected_im (r c k : ℕ) : ℤ :=
  ((frame1_expected_im_table.getD k []).getD r []).getD c 0

/-- The ownership-relevant state of `StreamBee` from
`src/lib/src/capture.rs` (lines 32-41).  Capture handle, sink senders and
thread join handles are abstracted to tags; `some` means the slot holds a
live value. -/
structure StreamBeeState where
  cap : Option ℕ
  pollen_sink : Option ℕ
  nectar_sink : Option ℕ
  honey_sink : Option ℕ
  running : Bool
  harvester : Option ℕ
  bfa_file_writer : Option ℕ
  bfm_file_writer : Option ℕ
deriving DecidableEq

/-- `StreamBee::stop` from `src/lib/src/capture.rs` (lines 219-245) as a
state transformation: store `false` into `running`; `take` and join
`harvester`; `take` and join `bfa_file_writer`; flush the pollen file; then
set `nectar_sink`, `pollen_sink` and `harvester` to `None`.  The function
never touches `honey_sink` or `bfm_file_writer`. -/
def StreamBee.stop (s : StreamBeeState) : StreamBeeState :=
  { s with running := false, harvester := none, bfa_file_writer := none,
           nectar_sink := none, pollen_sink := none }

/-- A `StreamBee` state as it looks while running with a pollen sink, both
file sinks (hence both spawned writer workers) and a live capture thread. -/
def c9_running_engine : StreamBeeState :=
  ⟨some 0, some 1, some 2, some 3, true, some 4, some 5, some 6⟩

end BeeFI

namespace BeeFI

/-- C3: the two bit-unpacking test vectors.  On bytes `[0xCA, 0xF0, 0x5C,
0x3E]` with widths `[6,4,4]` and 2 chunks, `extract_bitfields` returns
`[[0x0A, 0x3, 0xC], [0x33, 0x5, 0xE]]`; on bytes `[0xCA, 0xF0]` with widths
`[9,5,2]` and 1 chunk it returns `[[0b011001010, 0b11000, 0b11]]` — bit
order LSB-first within a byte, little-endian across bytes. -/
theorem c3_bit_unpack_vectors :
    extract_bitfields [0xCA, 0xF0, 0x5C, 0x3E] [6, 4, 4] 2 =
      some (.ok [[0x0A, 0x3, 0xC], [0x33, 0x5, 0xE]]) ∧
    extract_bitfields [0xCA, 0xF0] [9, 5, 2] 1 =
      some (.ok [[0b011001010, 0b11000, 0b11]]) := by
  constructor <;> rfl

/-- C4: the angle-bit-size table holds exactly for the four valid
`(codebook_info, feedback_type)` pairs and fails with `InvalidFeedbackType`
elsewhere; `get_pattern` succeeds exactly for the nine valid
`(nr_index, nc_index)` pairs with the stated pattern lengths and fails with
`InvalidAntennaConfig` elsewhere; composing them,
`ExtractionConfig::from_he_mimo_ctrl` on control bytes
`[0x19, 0x82, 0x00, 0xC4, 0x0D]` yields bitfield pattern
`[6,6,6,4,4,4,6,6,4,4]` and 64 subcarriers. -/
theorem c4_extraction_config_tables :
    (∀ cb fb : ℕ, ¬((cb = 0 ∨ cb = 1) ∧ (fb = 0 ∨ fb = 1)) →
      get_angle_bit_sizes cb fb = .error (.invalidFeedbackType fb)) ∧
    (∀ nr nc : ℕ,
      ¬(nr = 1 ∧ nc = 0 ∨ nr = 1 ∧ nc = 2 ∨ nr = 2 ∧ nc = 0 ∨ nr = 2 ∧ nc = 1 ∨
        nr = 2 ∧ nc = 2 ∨ nr = 3 ∧ nc = 0 ∨ nr = 3 ∧ nc = 1 ∨ nr = 3 ∧ nc = 2 ∨
        nr = 3 ∧ nc = 3) →
      ExtractionConfig.get_pattern nr nc = .error (.invalidAntennaConfig nr nc)) ∧
    get_angle_bit_sizes 0 0 = .ok ⟨4, 2⟩ ∧
    get_angle_bit_sizes 0 1 = .ok ⟨7, 5⟩ ∧
    get_angle_bit_sizes 1 0 = .ok ⟨6, 4⟩ ∧
    get_angle_bit_sizes 1 1 = .ok ⟨9, 7⟩ ∧
    (ExtractionConfig.get_pattern 1 0 = .ok (ANGLE_PATTERNS.getD 0 []) ∧
      (ANGLE_PATTERNS.getD 0 []).length = 2) ∧
    (ExtractionConfig.get_pattern 1 2 = .ok (ANGLE_PATTERNS.getD 0 []) ∧
      (ANGLE_PATTERNS.getD 0 []).length = 2) ∧
    (ExtractionConfig.get_pattern 2 0 = .ok (ANGLE_PATTERNS.getD 1 []) ∧
      (ANGLE_PATTERNS.getD 1 []).length = 4) ∧
    (ExtractionConfig.get_pattern 2 1 = .ok (ANGLE_PATTERNS.getD 2 []) ∧
      (ANGLE_PATTERNS.getD 2 []).length = 6) ∧
    (ExtractionConfig.get_pattern 2 2 = .ok (ANGLE_PATTERNS.getD 2 []) ∧
      (ANGLE_PATTERNS.getD 2 []).length = 6) ∧
    (ExtractionConfig.get_pattern 3 0 = .ok (ANGLE_PATTERNS.getD 3 []) ∧
      (ANGLE_PATTERNS.getD 3 []).length = 6) ∧
    (ExtractionConfig.get_pattern 3 1 = .ok (ANGLE_PATTERNS.getD 4 []) ∧
      (ANGLE_PATTERNS.getD 4 []).length = 10) ∧
    (ExtractionConfig.get_pattern 3 2 = .ok (ANGLE_PATTERNS.getD 5 []) ∧
      (ANGLE_PATTERNS.getD 5 []).length = 12) ∧
    (ExtractionConfig.get_pattern 3 3 = .ok (ANGLE_PATTERNS.getD 5 []) ∧
      (ANGLE_PATTERNS.getD 5 []).length = 12) ∧
    HeMimoControl.from_buf [0x19, 0x82, 0x00, 0xC4, 0x0D] = some 0x0DC4008219 ∧
    ExtractionConfig.from_he_mimo_ctrl 0x0DC4008219 =
      .ok ⟨[6, 6, 6, 4, 4, 4, 6, 6, 4, 4], 64⟩ := by
  refine ⟨?_, ?_, ?_⟩
  · intro cb fb h
    unfold get_angle_bit_sizes
    split_ifs with h1 h2 h3 h4 <;> first | rfl | (exfalso; omega)
  · intro nr nc h
    unfold ExtractionConfig.get_pattern
    split_ifs with h1 h2 h3 h4 h5 h6 <;> first | rfl | (exfalso; omega)
  · decide

/-- Witness for `c4_extraction_config_tables`: instantiation of its two
universally quantified failure clauses at concrete invalid inputs. -/
theorem c4_extraction_config_tables_witness :
    get_angle_bit_sizes 0 2 = .error (.invalidFeedbackType 2) ∧
    ExtractionConfig.get_pattern 0 0 = .error (.invalidAntennaConfig 0 0) :=
  ⟨c4_extraction_config_tables.1 0 2 (by decide),
   c4_extraction_config_tables.2.1 0 0 (by decide)⟩

/-- C5 counterexample: the claim says any width above 9 makes the unpacker
fail with `InvalidBitfieldSize`, but on a stream that also has too few bits
the code reports `InsufficientBitsize` instead, because
`sanity_check_extraction` performs the bit-count check before the width
check.  Width 10 > 9, yet the error is `InsufficientBitsize`. -/
theorem c5_counterexample :
    extract_bitfields [] [10] 1 = some (.error (.insufficientBitsize 10 0)) ∧
    BfaExtractionError.insufficientBitsize 10 0 ≠
      BfaExtractionError.invalidBitfieldSize 10 9 := by
  exact ⟨rfl, by decide⟩

/-- C5 (amended): the unpacker first checks that the stream holds at least
`num_chunks * sum(widths)` bits, failing with
`InsufficientBitsize{required, available}`; only then does it reject a width
above 9 with `InvalidBitfieldSize`; in particular widths `[6,4,4]` with 2
chunks over a 2-byte stream fail with `InsufficientBitsize{28, 16}`. -/
theorem c5_sanity_check_errors :
    (∀ (byte_stream bitfield_pattern : List ℕ) (num_chunks : ℕ),
      byte_stream.length * 8 < bitfield_pattern.sum * num_chunks →
      extract_bitfields byte_stream bitfield_pattern num_chunks =
        some (.error (.insufficientBitsize (bitfield_pattern.sum * num_chunks)
          (byte_stream.length * 8)))) ∧
    (∀ (byte_stream bitfield_pattern : List ℕ) (num_chunks : ℕ),
      ¬(byte_stream.length * 8 < bitfield_pattern.sum * num_chunks) →
      bitfield_pattern.any (fun x => 9 < x) = true →
      extract_bitfields byte_stream bitfield_pattern num_chunks =
        some (.error (.invalidBitfieldSize (bitfield_pattern.foldr max 0) 9))) ∧
    extract_bitfields [0xCA, 0xF0] [6, 4, 4] 2 =
      some (.error (.insufficientBitsize 28 16)) := by
  refine ⟨?_, ?_, rfl⟩
  · intro s p n h
    unfold extract_bitfields sanity_check_extraction
    simp only [if_pos h]
  · intro s p n h1 h2
    unfold extract_bitfields sanity_check_extraction
    simp only [if_neg h1, h2, if_pos]

/-- Witness for `c5_sanity_check_errors`: its two conditional clauses applied
at concrete inputs. -/
theorem c5_sanity_check_errors_witness :
    extract_bitfields [] [6] 1 = some (.error (.insufficientBitsize 6 0)) ∧
    extract_bitfields [0, 0] [10] 1 =
      some (.error (.invalidBitfieldSize 10 9)) :=
  ⟨c5_sanity_check_errors.1 [] [6] 1 (by decide),
   c5_sanity_check_errors.2.1 [0, 0] [10] 1 (by decide) (by decide)⟩

/-- C10: `extract_bitfields` unconditionally reads bytes 0 and 1 of the
stream to seed its 16-bit window before any per-chunk work, so on any stream
shorter than two bytes it panics (`none`) instead of returning an error —
even with zero chunks or an empty bitfield pattern, where zero bits are
required and the sanity checks pass. -/
theorem c10_short_stream_panics :
    ∀ (byte_stream bitfield_pattern : List ℕ), byte_stream.length < 2 →
      (∀ w ∈ bitfield_pattern, w ≤ 9) →
      extract_bitfields byte_stream bitfield_pattern 0 = none ∧
      ∀ num_chunks, extract_bitfields byte_stream [] num_chunks = none := by
  intro s p hlen hw
  have hany : p.any (fun x => 9 < x) = false := by
    rw [List.any_eq_false]
    intro x hx
    simp only [decide_eq_true_eq]
    exact Nat.not_lt.mpr (hw x hx)
  constructor
  · unfold extract_bitfields sanity_check_extraction
    simp only [Nat.mul_zero, Nat.not_lt_zero, if_neg, hany, Bool.false_eq_true, if_false]
    match s, hlen with
    | [], _ => rfl
    | [b], _ => rfl
  · intro n
    unfold extract_bitfields sanity_check_extraction
    simp only [List.sum_nil, Nat.zero_mul, Nat.not_lt_zero, if_neg, List.any_nil,
      Bool.false_eq_true, if_false]
    match s, hlen with
    | [], _ => rfl
    | [b], _ => rfl

/-- Witness for `c10_short_stream_panics`: concrete instantiations — a
one-byte stream with a nonempty pattern and zero chunks, and the empty
stream with the empty pattern and five chunks. -/
theorem c10_short_stream_panics_witness :
    extract_bitfields [0xCA] [6, 4] 0 = none ∧
    extract_bitfields [] [] 5 = none :=
  ⟨(c10_short_stream_panics [0xCA] [6, 4] (by decide) (by decide)).1,
   (c10_short_stream_panics [] [] (by decide) (by decide)).2 5⟩

/-- C6 counterexample: on a frame whose (valid) 4x2 control demands 3200
payload bits but whose payload holds only 24, `extract_bfa` reports
`InsufficientBitsize{3200, 24}` — yet `extract_from_packet` does not return
that error: the `.expect("BFA extraction failed")` call panics (`none`),
killing the capture thread, contrary to the claim that `InsufficientBitsize`
is surfaced as a returned error and per-packet errors are never fatal. -/
theorem c6_counterexample :
    extract_bfa ((c6_panic_packet.take 36).drop 33)
        ⟨[6, 6, 6, 4, 4, 4, 6, 6, 4, 4], 64⟩ =
      some (.error (.insufficientBitsize 3200 24)) ∧
    extract_from_packet 0 0 c6_panic_packet = none := by
  constructor <;> decide

/-- C6 (amended): configuration failures (`InvalidAntennaConfig`,
`InvalidFeedbackType`) from the HE MIMO Control decode are surfaced as
errors returned by `extract_from_packet`; the capture loop drops such a
packet and continues with the next one.  `InsufficientBitsize` from the bit
unpacker however is not returned: `extract_from_packet` panics on it, which
is fatal to the capture thread. -/
theorem c6_dissection_error_policy :
    (∀ (tv_sec tv_usec : ℤ) (data : List ℕ) (b2 b3 v : ℕ)
        (e : BfaExtractionError),
      data.get? 2 = some b2 → data.get? 3 = some b3 →
      HeMimoControl.from_buf (data.drop (b2 + b3 * 2 ^ 8 + 26)) = some v →
      ExtractionConfig.from_he_mimo_ctrl v = .error e →
      extract_from_packet tv_sec tv_usec data = some (.error e)) ∧
    extract_from_packet 0 0 c6_bad_config_packet =
      some (.error (.invalidAntennaConfig 0 0)) ∧
    (harvest_dissect [(0, 0, c6_bad_config_packet), (0, 0, c6_good_packet)]).map
        (List.map BfaData.core) =
      some [(⟨40, 1, 0, 0, 0⟩, 5, List.replicate 32 [0, 0])] ∧
    harvest_dissect [(0, 0, c6_panic_packet)] = none := by
  refine ⟨?_, by decide, by decide, by decide⟩
  intro tv_sec tv_usec data b2 b3 v e h2 h3 hv he
  unfold extract_from_packet
  simp only [h2, h3, hv, he]

/-- Witness for `c6_dissection_error_policy`: its universally quantified
clause applied to the concrete all-zero-control frame, whose antenna
configuration `(0, 0)` is invalid. -/
theorem c6_dissection_error_policy_witness :
    extract_from_packet 7 500000 c6_bad_config_packet =
      some (.error (.invalidAntennaConfig 0 0)) :=
  c6_dissection_error_policy.1 7 500000 c6_bad_config_packet 0 0 0
    (.invalidAntennaConfig 0 0) (by decide) (by decide) (by decide) (by decide)

/-- Helper: as long as the buffer would not exceed `BATCH_SIZE`, the writer
loop only accumulates and never writes a batch. -/
theorem writer_foldl_small {α : Type _} :
    ∀ (msgs buf : List α) (batches : List (List α)),
      buf.length + msgs.length ≤ BATCH_SIZE →
      msgs.foldl writer_step (batches, buf) = (batches, buf ++ msgs) := by
  intro msgs
  induction msgs with
  | nil => intro buf batches _; simp
  | cons m ms ih =>
    intro buf batches h
    simp only [List.length_cons] at h
    have hstep : writer_step (batches, buf) m = (batches, buf ++ [m]) := by
      unfold writer_step
      rw [if_pos (by simp only [List.length_append, List.length_cons,
        List.length_nil]; omega)]
    rw [List.foldl_cons, hstep, ih (buf ++ [m]) batches
      (by simp only [List.length_append, List.length_cons, List.length_nil]; omega)]
    simp

/-- Helper: the writer loop loses no record — batches written plus the
residual buffer always hold exactly the received records in order. -/
theorem writer_foldl_join {α : Type _} :
    ∀ (msgs : List α) (batches : List (List α)) (buf : List α),
      (msgs.foldl writer_step (batches, buf)).1.flatten ++
        (msgs.foldl writer_step (batches, buf)).2 = batches.flatten ++ buf ++ msgs := by
  intro msgs
  induction msgs with
  | nil => intro batches buf; simp
  | cons m ms ih =>
    intro batches buf
    rw [List.foldl_cons]
    by_cases hc : (buf ++ [m]).length ≤ BATCH_SIZE
    · rw [show writer_step (batches, buf) m = (batches, buf ++ [m]) by
        unfold writer_step; rw [if_pos hc], ih]
      simp
    · rw [show writer_step (batches, buf) m = (batches ++ [buf ++ [m]], []) by
        unfold writer_step; rw [if_neg hc], ih]
      simp

/-- C7: the writer worker's batching at the failing input.  After receiving
exactly `BATCH_SIZE = 1000` records the code has written no batch (the spec
and the `BATCH_SIZE` doc comment say a batch is committed once 1000 records
are buffered): the guard is `packet_buffer.len() <= BATCH_SIZE`, so the
first flush happens only after the 1001st record arrives, as one
1001-record batch.  The residual flush on channel closure does hold, so
every received record is eventually written. -/
theorem c7_writer_batching :
    writer_loop (List.replicate BATCH_SIZE (0 : ℕ)) =
      ([], List.replicate BATCH_SIZE 0) ∧
    writer_loop (List.replicate (BATCH_SIZE + 1) (0 : ℕ)) =
      ([List.replicate (BATCH_SIZE + 1) 0], []) ∧
    ∀ (msgs : List ℕ), (write_packets_to_file msgs).flatten = msgs := by
  refine ⟨?_, ?_, ?_⟩
  · unfold writer_loop
    rw [writer_foldl_small (List.replicate BATCH_SIZE 0) [] []
      (by simp)]
    simp
  · unfold writer_loop
    rw [List.replicate_succ' (n := BATCH_SIZE), List.foldl_append,
      writer_foldl_small (List.replicate BATCH_SIZE 0) [] [] (by simp)]
    simp only [List.foldl_cons, List.foldl_nil, List.nil_append]
    unfold writer_step
    rw [if_neg (by simp)]
    simp [List.replicate_succ']
  · intro msgs
    have h := writer_foldl_join msgs [] []
    unfold write_packets_to_file writer_loop
    by_cases hb : (msgs.foldl writer_step ([], [])).2.isEmpty
    · simp only [hb, if_pos]
      rw [List.isEmpty_iff] at hb
      simp only [writer_loop] at h ⊢
      rw [hb] at h
      simpa using h
    · simp only [hb, if_neg, Bool.false_eq_true, if_false]
      simp only [writer_loop] at h ⊢
      rw [List.flatten_append]
      simpa using h

/-- Helper: extracting byte `i` from the little-endian value of a byte
stream. -/
theorem streamNat_getD (stream : List ℕ) (hB : ∀ b ∈ stream, b < 2 ^ 8) :
    ∀ i, streamNat stream / 2 ^ (8 * i) % 2 ^ 8 = stream.getD i 0 := by
  induction stream with
  | nil => intro i; simp [streamNat]
  | cons b bs ih =>
    intro i
    have hb : b < 2 ^ 8 := hB b (List.mem_cons_self b bs)
    cases i with
    | zero =>
      simp only [streamNat, Nat.mul_zero, pow_zero, Nat.div_one,
        List.getD_cons_zero]
      rw [Nat.add_mul_mod_self_left, Nat.mod_eq_of_lt hb]
    | succ j =>
      have h2 : (2 : ℕ) ^ (8 * (j + 1)) = 2 ^ 8 * 2 ^ (8 * j) := by ring
      simp only [streamNat, List.getD_cons_succ]
      rw [h2, ← Nat.div_div_eq_div_mul]
      have h3 : (b + 2 ^ 8 * streamNat bs) / 2 ^ 8 = streamNat bs := by
        rw [Nat.add_mul_div_left b (streamNat bs) (by positivity),
          Nat.div_eq_of_lt hb, Nat.zero_add]
      rw [h3]
      exact ih (fun x hx => hB x (List.mem_cons_of_mem b hx)) j

/-- Helper: split a `mod` by a power of two into low and high parts. -/
theorem mod_pow_split (n a b : ℕ) :
    n % 2 ^ (a + b) = n % 2 ^ a + 2 ^ a * (n / 2 ^ a % 2 ^ b) := by
  rw [pow_add, Nat.mod_mul]

/-- Helper: shifting one byte into the 16-bit window. -/
theorem window_shift (X b : ℕ) (hb : X / 2 ^ 16 % 2 ^ 8 = b) :
    X % 2 ^ 16 / 2 ^ 8 + b * 2 ^ 8 = X / 2 ^ 8 % 2 ^ 16 := by
  subst hb
  have h1 : X % 2 ^ 16 / 2 ^ 8 = X / 2 ^ 8 % 2 ^ 8 := by
    have h := Nat.mod_mul_right_div_self X (2 ^ 8) (2 ^ 8)
    rw [show (2 : ℕ) ^ 8 * 2 ^ 8 = 2 ^ 16 by norm_num] at h
    exact h
  have h2 : X / 2 ^ 8 % 2 ^ 16 =
      X / 2 ^ 8 % 2 ^ 8 + 2 ^ 8 * (X / 2 ^ 8 / 2 ^ 8 % 2 ^ 8) := by
    rw [show (2 : ℕ) ^ 16 = 2 ^ 8 * 2 ^ 8 by norm_num, Nat.mod_mul]
  have h3 : X / 2 ^ 8 / 2 ^ 8 = X / 2 ^ 16 := by
    rw [Nat.div_div_eq_div_mul, show (2 : ℕ) ^ 8 * 2 ^ 8 = 2 ^ 16 by norm_num]
  rw [h1, h2, h3]
  ring

/-- Helper: the refill loop succeeds, preserves the window invariant and the
consumed-bit count, and leaves room for the next field, as long as the
stream still holds the needed bits. -/
theorem refill_spec (stream : List ℕ) (hB : ∀ b ∈ stream, b < 2 ^ 8)
    (w : ℕ) (hw : w ≤ 9) :
    ∀ (fuel : ℕ) (s : ExtractState), WindowInv stream s →
      s.window_offset < 8 * fuel →
      consumedBits s + w ≤ 8 * stream.length →
      ∃ s', refill stream w fuel s = some s' ∧ WindowInv stream s' ∧
        consumedBits s' = consumedBits s ∧ s'.window_offset + w ≤ 16 := by
  intro fuel
  induction fuel with
  | zero => intro s _ hfuel _; omega
  | succ f ih =>
    intro s hInv hfuel hcons
    obtain ⟨hwin, hoff, hc2, hclen⟩ := hInv
    simp only [refill]
    by_cases hcond : s.window_offset + w > 16
    · rw [if_pos hcond, if_pos (by omega : 8 ≤ s.window_offset)]
      unfold consumedBits at hcons
      have hlt : s.curr_byte < stream.length := by omega
      have hget : stream.get? s.curr_byte = some (stream.get ⟨s.curr_byte, hlt⟩) :=
        List.get?_eq_get hlt
      rw [hget]
      set bb := stream.get ⟨s.curr_byte, hlt⟩ with hbb
      have hbD : stream.getD s.curr_byte 0 = bb := by
        rw [List.getD_eq_getElem?_getD, List.getElem?_eq_getElem hlt]
        rfl
      have hwin2 : s.bit_window / 2 ^ 8 + bb * 2 ^ 8 =
          streamNat stream / 2 ^ (8 * (s.curr_byte + 1 - 2)) % 2 ^ 16 := by
        rw [hwin]
        have hX : streamNat stream / 2 ^ (8 * (s.curr_byte - 2)) / 2 ^ 16 % 2 ^ 8 = bb := by
          rw [Nat.div_div_eq_div_mul, ← pow_add,
            show 8 * (s.curr_byte - 2) + 16 = 8 * s.curr_byte by omega,
            streamNat_getD stream hB, hbD]
        have hshift := window_shift (streamNat stream / 2 ^ (8 * (s.curr_byte - 2))) bb hX
        rw [hshift, Nat.div_div_eq_div_mul, ← pow_add,
          show 8 * (s.curr_byte - 2) + 8 = 8 * (s.curr_byte + 1 - 2) by omega]
      obtain ⟨s', h1, h2, h3, h4⟩ := ih
        ⟨s.bit_window / 2 ^ 8 + bb * 2 ^ 8, s.window_offset - 8, s.curr_byte + 1⟩
        ⟨hwin2, show s.window_offset - 8 ≤ 16 by omega,
          show 2 ≤ s.curr_byte + 1 by omega,
          show s.curr_byte + 1 ≤ stream.length by omega⟩
        (show s.window_offset - 8 < 8 * f by omega)
        (show 8 * (s.curr_byte + 1 - 2) + (s.window_offset - 8) + w ≤
          8 * stream.length by omega)
      refine ⟨s', h1, h2, ?_, h4⟩
      rw [h3]
      exact show 8 * (s.curr_byte + 1 - 2) + (s.window_offset - 8) =
        8 * (s.curr_byte - 2) + s.window_offset from by omega
    · rw [if_neg hcond]
      exact ⟨s, rfl, ⟨hwin, hoff, hc2, hclen⟩, rfl, by omega⟩

/-- Helper: one field extraction yields exactly bits
`consumedBits s .. consumedBits s + w - 1` of the stream. -/
theorem extract_field_spec (stream : List ℕ) (hB : ∀ b ∈ stream, b < 2 ^ 8)
    (w : ℕ) (hw : w ≤ 9) (s : ExtractState) (hInv : WindowInv stream s)
    (hcons : consumedBits s + w ≤ 8 * stream.length) :
    ∃ s', extract_field stream w s =
        some (streamNat stream / 2 ^ consumedBits s % 2 ^ w, s') ∧
      WindowInv stream s' ∧ consumedBits s' = consumedBits s + w := by
  obtain ⟨s1, hr, hInv1, hc1, hle⟩ :=
    refill_spec stream hB w hw (s.window_offset + 1) s hInv (by omega) hcons
  obtain ⟨hwin1, hoff1, hc21, hlen1⟩ := hInv1
  have hval : s1.bit_window / 2 ^ s1.window_offset % 2 ^ w =
      streamNat stream / 2 ^ consumedBits s % 2 ^ w := by
    rw [hwin1]
    have hsplit : (2 : ℕ) ^ 16 = 2 ^ s1.window_offset * 2 ^ (16 - s1.window_offset) := by
      rw [← pow_add]
      congr 1
      omega
    have h1 : streamNat stream / 2 ^ (8 * (s1.curr_byte - 2)) % 2 ^ 16 / 2 ^ s1.window_offset =
        streamNat stream / 2 ^ (8 * (s1.curr_byte - 2)) / 2 ^ s1.window_offset %
          2 ^ (16 - s1.window_offset) := by
      rw [hsplit]
      exact Nat.mod_mul_right_div_self _ _ _
    rw [h1, Nat.mod_mod_of_dvd _ (pow_dvd_pow 2 (by omega)),
      Nat.div_div_eq_div_mul, ← pow_add, ← consumedBits, hc1]
  simp only [extract_field, hr]
  refine ⟨⟨s1.bit_window, s1.window_offset + w, s1.curr_byte⟩, by rw [hval],
    ⟨hwin1, hle, hc21, hlen1⟩, ?_⟩
  show 8 * (s1.curr_byte - 2) + (s1.window_offset + w) = consumedBits s + w
  unfold consumedBits at hc1 ⊢
  omega

/-- Helper: extracting one chunk yields exactly the next `ws.sum` stream
bits, re-packing to `streamNat / 2 ^ p % 2 ^ ws.sum`. -/
theorem extract_chunk_spec (stream : List ℕ) (hB : ∀ b ∈ stream, b < 2 ^ 8) :
    ∀ (ws : List ℕ) (s : ExtractState), (∀ x ∈ ws, x ≤ 9) → WindowInv stream s →
      consumedBits s + ws.sum ≤ 8 * stream.length →
      ∃ vs s', extract_chunk stream ws s = some (vs, s') ∧ WindowInv stream s' ∧
        consumedBits s' = consumedBits s + ws.sum ∧ vs.length = ws.length ∧
        repackFields (ws.zip vs) =
          streamNat stream / 2 ^ consumedBits s % 2 ^ ws.sum := by
  intro ws
  induction ws with
  | nil =>
    intro s _ hInv _
    exact ⟨[], s, rfl, hInv, by simp, rfl, by simp [repackFields, Nat.mod_one]⟩
  | cons w rest ih =>
    intro s hws hInv hcons
    rw [List.sum_cons] at hcons
    obtain ⟨s1, hf, hInv1, hc1⟩ := extract_field_spec stream hB w
      (hws w (List.mem_cons_self w rest)) s hInv (by omega)
    obtain ⟨vs, s2, hch, hInv2, hc2, hlen, hrp⟩ := ih s1
      (fun x hx => hws x (List.mem_cons_of_mem w hx)) hInv1 (by omega)
    simp only [extract_chunk, hf, hch]
    refine ⟨_, s2, rfl, hInv2, by rw [hc2, hc1, List.sum_cons]; ring,
      by simp [hlen], ?_⟩
    rw [List.zip_cons_cons, repackFields, hrp, hc1, List.sum_cons,
      mod_pow_split (streamNat stream / 2 ^ consumedBits s) w rest.sum,
      Nat.div_div_eq_div_mul, ← pow_add]

/-- Helper: extracting `n` chunks yields exactly the first `n * ws.sum`
stream bits past the current position. -/
theorem extract_chunks_spec (stream : List ℕ) (hB : ∀ b ∈ stream, b < 2 ^ 8)
    (ws : List ℕ) (hws : ∀ x ∈ ws, x ≤ 9) :
    ∀ (n : ℕ) (s : ExtractState), WindowInv stream s →
      consumedBits s + n * ws.sum ≤ 8 * stream.length →
      ∃ cs s', extract_chunks stream ws n s = some (cs, s') ∧
        cs.length = n ∧ (∀ c ∈ cs, c.length = ws.length) ∧
        repackChunks ws cs =
          streamNat stream / 2 ^ consumedBits s % 2 ^ (n * ws.sum) := by
  intro n
  induction n with
  | zero =>
    intro s hInv _
    exact ⟨[], s, rfl, rfl, by simp, by simp [repackChunks, Nat.mod_one]⟩
  | succ m ih =>
    intro s hInv hcons
    have hsum : (m + 1) * ws.sum = ws.sum + m * ws.sum := by ring
    rw [hsum] at hcons
    obtain ⟨vs, s1, hch, hInv1, hc1, hlen, hrp⟩ :=
      extract_chunk_spec stream hB ws s hws hInv (by omega)
    obtain ⟨cs, s2, hchs, hcsl, hall, hrps⟩ := ih s1 hInv1 (by omega)
    simp only [extract_chunks, hch, hchs]
    refine ⟨vs :: cs, s2, rfl, by simp [hcsl], ?_, ?_⟩
    · intro c hc
      rcases List.mem_cons.mp hc with h | h
      · rw [h, hlen]
      · exact hall c h
    · rw [repackChunks, hrp, hrps, hc1, hsum,
        mod_pow_split (streamNat stream / 2 ^ consumedBits s) ws.sum (m * ws.sum),
        Nat.div_div_eq_div_mul, ← pow_add]

/-- C2: bit-unpack exactness.  For every byte stream, width pattern with all
widths at most 9, and chunk count whose total bit demand fits in the stream
(and a stream of at least two bytes, so that the unconditional window seed
does not panic — see C10): `extract_bitfields` succeeds, returns
`num_chunks` rows of `pattern.length` values each, and re-packing the
values (each into its width, LSB-first, little-endian) reproduces exactly
the first `num_chunks * pattern.sum` bits of the stream; trailing bytes are
ignored. -/
theorem c2_bit_unpack_roundtrip :
    ∀ (byte_stream bitfield_pattern : List ℕ) (num_chunks : ℕ),
      (∀ b ∈ byte_stream, b < 2 ^ 8) →
      (∀ w ∈ bitfield_pattern, w ≤ 9) →
      num_chunks * bitfield_pattern.sum ≤ byte_stream.length * 8 →
      2 ≤ byte_stream.length →
      ∃ result,
        extract_bitfields byte_stream bitfield_pattern num_chunks =
          some (.ok result) ∧
        result.length = num_chunks ∧
        (∀ c ∈ result, c.length = bitfield_pattern.length) ∧
        repackChunks bitfield_pattern result =
          streamNat byte_stream % 2 ^ (num_chunks * bitfield_pattern.sum) := by
  intro s p n hB hw hbits hlen
  match s, hlen with
  | b0 :: b1 :: rest, _ =>
  have hb0 : b0 < 2 ^ 8 := hB b0 (by simp)
  have hb1 : b1 < 2 ^ 8 := hB b1 (by simp)
  have hany : p.any (fun x => 9 < x) = false := by
    rw [List.any_eq_false]
    intro x hx
    simp only [decide_eq_true_eq]
    exact Nat.not_lt.mpr (hw x hx)
  have hsan : sanity_check_extraction p n (b0 :: b1 :: rest).length = .ok () := by
    unfold sanity_check_extraction
    rw [if_neg (by rw [Nat.mul_comm] at hbits; omega), if_neg (by simp [hany])]
  have hInv0 : WindowInv (b0 :: b1 :: rest) ⟨b0 + b1 * 2 ^ 8, 0, 2⟩ := by
    refine ⟨?_, show (0 : ℕ) ≤ 16 by omega, show (2 : ℕ) ≤ 2 by omega,
      show (2 : ℕ) ≤ (b0 :: b1 :: rest).length by simp [List.length_cons]⟩
    show b0 + b1 * 2 ^ 8 = streamNat (b0 :: b1 :: rest) / 2 ^ (8 * (2 - 2)) % 2 ^ 16
    have hs : streamNat (b0 :: b1 :: rest) =
        b0 + b1 * 2 ^ 8 + 2 ^ 16 * streamNat rest := by
      simp only [streamNat]
      ring
    rw [hs]
    simp only [show 8 * (2 - 2) = 0 by omega, pow_zero, Nat.div_one]
    rw [Nat.add_mul_mod_self_left, Nat.mod_eq_of_lt (by omega)]
  have hcons0 : consumedBits ⟨b0 + b1 * 2 ^ 8, 0, 2⟩ + n * p.sum ≤
      8 * (b0 :: b1 :: rest).length := by
    show 8 * (2 - 2) + 0 + n * p.sum ≤ 8 * (b0 :: b1 :: rest).length
    simp only [List.length_cons] at hbits ⊢
    omega
  obtain ⟨cs, s', hchs, hcsl, hall, hrp⟩ :=
    extract_chunks_spec (b0 :: b1 :: rest) hB p hw n ⟨b0 + b1 * 2 ^ 8, 0, 2⟩
      hInv0 hcons0
  refine ⟨cs, ?_, hcsl, hall, ?_⟩
  · unfold extract_bitfields
    simp only [hsan, List.get?, hchs]
  · rw [hrp]
    unfold consumedBits
    simp

/-- Witness for `c2_bit_unpack_roundtrip`: the round-trip at the concrete
test vector `[0xCA, 0xF0, 0x5C, 0x3E]`, widths `[6,4,4]`, 2 chunks. -/
theorem c2_bit_unpack_roundtrip_witness :
    ∃ result,
      extract_bitfields [0xCA, 0xF0, 0x5C, 0x3E] [6, 4, 4] 2 =
        some (.ok result) ∧
      result.length = 2 ∧
      (∀ c ∈ result, c.length = 3) ∧
      repackChunks [6, 4, 4] result =
        streamNat [0xCA, 0xF0, 0x5C, 0x3E] % 2 ^ (2 * List.sum [6, 4, 4]) :=
  c2_bit_unpack_roundtrip [0xCA, 0xF0, 0x5C, 0x3E] [6, 4, 4] 2
    (by decide) (by decide) (by decide) (by decide)

/-- Helper: a real scalar times a complex number with zero imaginary part
stays on the real axis; sums and differences of such products too. -/
theorem real_combo_im (a b : ℝ) (z w : ℂ) (hz : z.im = 0) (hw : w.im = 0) :
    ((a : ℂ) * z + (b : ℂ) * w).im = 0 ∧ ((a : ℂ) * z - (b : ℂ) * w).im = 0 := by
  constructor <;>
    simp [Complex.add_im, Complex.sub_im, Complex.mul_im, Complex.ofReal_re,
      Complex.ofReal_im, hz, hw]

/-- Helper: the last-row invariant of the pattern fold.  If `S` lists
columns whose last-row (`L`) entries are zero, the pattern is safe for `S`,
and the whole last row is real, then the fold keeps the last row real —
for any quantization constants and any angle values. -/
theorem run_pattern_last_row (c1p c2p c1s c2s : ℝ) (L : ℕ) :
    ∀ (pat : List (Angles × ℕ × ℕ)) (S : List ℕ) (qs : List ℕ) (acc : ℕ → ℕ → ℂ),
      safeSteps pat S = true →
      (∀ c ∈ S, acc L c = 0) →
      (∀ c, (acc L c).im = 0) →
      ∀ c, ((run_pattern c1p c2p c1s c2s pat qs acc) L c).im = 0 := by
  intro pat
  induction pat with
  | nil =>
    intro S qs acc _ _ hreal c
    cases qs <;> exact hreal c
  | cons hd ps ih =>
    obtain ⟨kind, nr, nc⟩ := hd
    intro S qs acc hsafe hzero hreal
    cases qs with
    | nil => cases kind <;> exact hreal
    | cons q qs' =>
      cases kind with
      | Phi =>
        simp only [safeSteps, Bool.and_eq_true, decide_eq_true_eq] at hsafe
        obtain ⟨hmem, hsafe'⟩ := hsafe
        refine ih S qs' _ hsafe' ?_ ?_
        · intro c hc
          unfold apply_d_inplace
          by_cases hcp : c = nr - 1
          · rw [if_pos hcp, hzero c hc, zero_mul]
          · rw [if_neg hcp]
            exact hzero c hc
        · intro c
          unfold apply_d_inplace
          by_cases hcp : c = nr - 1
          · rw [if_pos hcp, hcp, hzero (nr - 1) hmem, zero_mul]
            exact Complex.zero_im
          · rw [if_neg hcp]
            exact hreal c
      | Psi =>
        simp only [safeSteps] at hsafe
        by_cases hab : (nr - 1) ∈ S ∧ (nc - 1) ∈ S
        · rw [if_pos hab] at hsafe
          refine ih S qs' _ hsafe ?_ ?_
          · intro c hc
            unfold apply_givens_inplace
            by_cases h1 : c = nc - 1
            · rw [if_pos h1, hzero _ hab.1, hzero _ hab.2, mul_zero, mul_zero,
                add_zero]
            · rw [if_neg h1]
              by_cases h2 : c = nr - 1
              · rw [if_pos h2, hzero _ hab.1, hzero _ hab.2, mul_zero, mul_zero,
                  sub_zero]
              · rw [if_neg h2]
                exact hzero c hc
          · intro c
            unfold apply_givens_inplace
            by_cases h1 : c = nc - 1
            · rw [if_pos h1]
              exact (real_combo_im _ _ _ _ (hreal _) (hreal _)).1
            · rw [if_neg h1]
              by_cases h2 : c = nr - 1
              · rw [if_pos h2]
                exact (real_combo_im _ _ _ _ (hreal _) (hreal _)).2
              · rw [if_neg h2]
                exact hreal c
        · rw [if_neg hab] at hsafe
          refine ih _ qs' _ hsafe ?_ ?_
          · intro c hc
            rw [List.mem_filter] at hc
            obtain ⟨hcS, hcne⟩ := hc
            rw [decide_eq_true_eq] at hcne
            unfold apply_givens_inplace
            rw [if_neg hcne.2, if_neg hcne.1]
            exact hzero c hcS
          · intro c
            unfold apply_givens_inplace
            by_cases h1 : c = nc - 1
            · rw [if_pos h1]
              exact (real_combo_im _ _ _ _ (hreal _) (hreal _)).1
            · rw [if_neg h1]
              by_cases h2 : c = nr - 1
              · rw [if_pos h2]
                exact (real_combo_im _ _ _ _ (hreal _) (hreal _)).2
              · rw [if_neg h2]
                exact hreal c

/-- C8 (amended): for every BFA record with a valid antenna and feedback
configuration (so `to_bfm` succeeds), every per-subcarrier matrix
`V[:,:,k]` has zero imaginary part throughout its last ROW (row
`nr_index = Nr - 1`) — not its last column, which the counterexample shows
is genuinely complex.  Identity seed, real Givens coefficients, and the
fact that every phase factor hits a column whose last-row entry is still
zero make the last row real by construction, for arbitrary angle values. -/
theorem c8_last_row_real :
    ∀ (bfa : BfaData) (bfm : BfmData),
      to_bfm bfa = .ok (some bfm) →
      ∀ c k, (bfm.feedback_matrix bfa.metadata.nr_index c k).im = 0 := by
  intro bfa bfm h c k
  unfold to_bfm at h
  rcases hgp : ExtractionConfig.get_pattern bfa.metadata.nr_index
    bfa.metadata.nc_index with e | pat
  · rw [hgp] at h
    simp at h
  rcases hbs : get_angle_bit_sizes bfa.metadata.codebook_info
    bfa.metadata.feedback_type with e | bs
  · rw [hgp, hbs] at h
    simp at h
  rw [hgp, hbs] at h
  dsimp only at h
  by_cases hall : bfa.bfa_angles.all (fun row => pat.length ≤ row.length) = true
  · rw [if_pos hall] at h
    simp only [Except.ok.injEq, Option.some.injEq] at h
    subst h
    have hsafe : safeSteps pat (List.range bfa.metadata.nr_index) = true := by
      unfold ExtractionConfig.get_pattern at hgp
      split_ifs at hgp with h1 h2 h3 h4 h5 h6
      · simp only [Except.ok.injEq] at hgp
        subst hgp
        rw [h1.1]
        decide
      · simp only [Except.ok.injEq] at hgp
        subst hgp
        rw [h2.1]
        decide
      · simp only [Except.ok.injEq] at hgp
        subst hgp
        rw [h3.1]
        decide
      · simp only [Except.ok.injEq] at hgp
        subst hgp
        rw [h4.1]
        decide
      · simp only [Except.ok.injEq] at hgp
        subst hgp
        rw [h5.1]
        decide
      · simp only [Except.ok.injEq] at hgp
        subst hgp
        rw [h6.1]
        decide
    show ((if bfa.metadata.nr_index < bfa.metadata.nr_index + 1 ∧
        c < bfa.metadata.nc_index + 1 ∧ k < bfa.bfa_angles.length then
        run_pattern (Real.pi / 2 ^ (bs.phi_bit - 1)) (Real.pi / 2 ^ bs.phi_bit)
          (Real.pi / 2 ^ (bs.psi_bit + 1)) (Real.pi / 2 ^ (bs.psi_bit + 2)) pat
          (bfa.bfa_angles.getD k []) (fun i j => if i = j then 1 else 0)
          bfa.metadata.nr_index c
      else 0)).im = 0
    split_ifs with hin
    · refine run_pattern_last_row _ _ _ _ bfa.metadata.nr_index pat
        (List.range bfa.metadata.nr_index) _ _ hsafe ?_ ?_ c
      · intro c' hc'
        rw [List.mem_range] at hc'
        rw [if_neg (by omega)]
      · intro c'
        by_cases hc' : bfa.metadata.nr_index = c'
        · rw [if_pos hc']
          exact Complex.one_im
        · rw [if_neg hc']
          exact Complex.zero_im
    · exact Complex.zero_im
  · rw [if_neg hall] at h
    simp at h

/-- Witness for `c8_last_row_real`: the Frame 1 test record converts
successfully and the bottom-left entry of its first subcarrier matrix is
real. -/
theorem c8_last_row_real_witness :
    to_bfm frame1_bfa = .ok (some frame1_bfm) ∧
    (frame1_bfm.feedback_matrix 3 0 0).im = 0 :=
  ⟨rfl, c8_last_row_real frame1_bfa frame1_bfm rfl 0 0⟩

/-- Helper: the real value of `ballScale`. -/
theorem ballScale_cast : ((ballScale : ℤ) : ℝ) = 281474976710656 := by
  unfold ballScale
  norm_num

/-- Helper: positivity of the scale. -/
theorem ballScale_pos : (0 : ℝ) < ((ballScale : ℤ) : ℝ) := by
  rw [ballScale_cast]
  norm_num

/-- Helper: `iabs` agrees with `|·|` on `ℤ`. -/
theorem iabs_eq (a : ℤ) : iabs a = |a| := (Int.abs_eq_natAbs a).symm

/-- Helper: floor bounds for Euclidean division by a positive integer, cast
into the reals. -/
theorem ediv_cast_bounds (a : ℤ) {b : ℤ} (hb : 0 < b) :
    ((a / b : ℤ) : ℝ) ≤ (a : ℝ) / (b : ℝ) ∧
      (a : ℝ) / (b : ℝ) - 1 < ((a / b : ℤ) : ℝ) := by
  have hdm := Int.ediv_add_emod a b
  have hnn := Int.emod_nonneg a (ne_of_gt hb)
  have hlt := Int.emod_lt_of_pos a hb
  have h1 : b * (a / b) ≤ a := by omega
  have h3 : a < b * (a / b) + b := by omega
  have hbR : (0 : ℝ) < (b : ℝ) := by exact_mod_cast hb
  constructor
  · rw [le_div_iff hbR]
    calc ((a / b : ℤ) : ℝ) * (b : ℝ) = ((b * (a / b) : ℤ) : ℝ) := by push_cast; ring
    _ ≤ (a : ℝ) := by exact_mod_cast h1
  · rw [sub_lt_iff_lt_add, div_lt_iff hbR]
    calc (a : ℝ) < ((b * (a / b) + b : ℤ) : ℝ) := by exact_mod_cast h3
    _ = (((a / b : ℤ) : ℝ) + 1) * (b : ℝ) := by push_cast; ring

/-- Helper: a ball radius is nonnegative as soon as the ball is inhabited. -/
theorem inBall_rad_nonneg {x : ℝ} {b : Ball} (h : inBall x b) :
    (0 : ℝ) ≤ (b.rad : ℝ) := by
  unfold inBall at h
  have h0 : (0 : ℝ) ≤ (b.rad : ℝ) / ((ballScale : ℤ) : ℝ) :=
    le_trans (abs_nonneg _) h
  by_contra hneg
  push_neg at hneg
  have : (b.rad : ℝ) / ((ballScale : ℤ) : ℝ) < 0 :=
    div_neg_of_neg_of_pos hneg ballScale_pos
  linarith

/-- Helper: soundness of ball addition. -/
theorem inBall_add {x y : ℝ} {a b : Ball} (ha : inBall x a) (hb : inBall y b) :
    inBall (x + y) (a.add b) := by
  have hS := ballScale_pos
  unfold inBall at ha hb ⊢
  show |x + y - ((a.mid + b.mid : ℤ) : ℝ) / ((ballScale : ℤ) : ℝ)| ≤
    ((a.rad + b.rad : ℤ) : ℝ) / ((ballScale : ℤ) : ℝ)
  have key : x + y - ((a.mid + b.mid : ℤ) : ℝ) / ((ballScale : ℤ) : ℝ) =
      (x - (a.mid : ℝ) / ((ballScale : ℤ) : ℝ)) +
      (y - (b.mid : ℝ) / ((ballScale : ℤ) : ℝ)) := by
    push_cast
    ring
  rw [key]
  calc |(x - (a.mid : ℝ) / ((ballScale : ℤ) : ℝ)) +
        (y - (b.mid : ℝ) / ((ballScale : ℤ) : ℝ))| ≤
      |x - (a.mid : ℝ) / ((ballScale : ℤ) : ℝ)| +
        |y - (b.mid : ℝ) / ((ballScale : ℤ) : ℝ)| := abs_add _ _
  _ ≤ (a.rad : ℝ) / ((ballScale : ℤ) : ℝ) + (b.rad : ℝ) / ((ballScale : ℤ) : ℝ) :=
      add_le_add ha hb
  _ = ((a.rad + b.rad : ℤ) : ℝ) / ((ballScale : ℤ) : ℝ) := by push_cast; ring

/-- Helper: soundness of ball subtraction. -/
theorem inBall_sub {x y : ℝ} {a b : Ball} (ha : inBall x a) (hb : inBall y b) :
    inBall (x - y) (a.sub b) := by
  have hS := ballScale_pos
  unfold inBall at ha hb ⊢
  show |x - y - ((a.mid - b.mid : ℤ) : ℝ) / ((ballScale : ℤ) : ℝ)| ≤
    ((a.rad + b.rad : ℤ) : ℝ) / ((ballScale : ℤ) : ℝ)
  have key : x - y - ((a.mid - b.mid : ℤ) : ℝ) / ((ballScale : ℤ) : ℝ) =
      (x - (a.mid : ℝ) / ((ballScale : ℤ) : ℝ)) -
      (y - (b.mid : ℝ) / ((ballScale : ℤ) : ℝ)) := by
    push_cast
    ring
  rw [key]
  calc |(x - (a.mid : ℝ) / ((ballScale : ℤ) : ℝ)) -
        (y - (b.mid : ℝ) / ((ballScale : ℤ) : ℝ))| ≤
      |x - (a.mid : ℝ) / ((ballScale : ℤ) : ℝ)| +
        |y - (b.mid : ℝ) / ((ballScale : ℤ) : ℝ)| := abs_sub _ _
  _ ≤ (a.rad : ℝ) / ((ballScale : ℤ) : ℝ) + (b.rad : ℝ) / ((ballScale : ℤ) : ℝ) :=
      add_le_add ha hb
  _ = ((a.rad + b.rad : ℤ) : ℝ) / ((ballScale : ℤ) : ℝ) := by push_cast; ring

/-- Helper: soundness of ball multiplication (with its floor roundings). -/
theorem inBall_mul {x y : ℝ} {a b : Ball} (ha : inBall x a) (hb : inBall y b) :
    inBall (x * y) (a.mul b) := by
  have hS := ballScale_pos
  have hra : (0 : ℝ) ≤ (a.rad : ℝ) := inBall_rad_nonneg ha
  have hrb : (0 : ℝ) ≤ (b.rad : ℝ) := inBall_rad_nonneg hb
  have hSpos : (0 : ℤ) < ballScale := by unfold ballScale; positivity
  unfold inBall at ha hb ⊢
  show |x * y - ((a.mid * b.mid / ballScale : ℤ) : ℝ) / ((ballScale : ℤ) : ℝ)| ≤
    (((iabs a.mid * b.rad + iabs b.mid * a.rad + a.rad * b.rad) / ballScale + 2 : ℤ) : ℝ) /
      ((ballScale : ℤ) : ℝ)
  set S : ℝ := ((ballScale : ℤ) : ℝ) with hSdef
  have key : x * y - (a.mid : ℝ) / S * ((b.mid : ℝ) / S) =
      (a.mid : ℝ) / S * (y - (b.mid : ℝ) / S) +
      (b.mid : ℝ) / S * (x - (a.mid : ℝ) / S) +
      (x - (a.mid : ℝ) / S) * (y - (b.mid : ℝ) / S) := by ring
  have t1 : |(a.mid : ℝ) / S * (y - (b.mid : ℝ) / S)| ≤
      |(a.mid : ℝ)| / S * ((b.rad : ℝ) / S) := by
    rw [abs_mul, abs_div, abs_of_pos hS]
    exact mul_le_mul_of_nonneg_left hb (by positivity)
  have t2 : |(b.mid : ℝ) / S * (x - (a.mid : ℝ) / S)| ≤
      |(b.mid : ℝ)| / S * ((a.rad : ℝ) / S) := by
    rw [abs_mul, abs_div, abs_of_pos hS]
    exact mul_le_mul_of_nonneg_left ha (by positivity)
  have t3 : |(x - (a.mid : ℝ) / S) * (y - (b.mid : ℝ) / S)| ≤
      (a.rad : ℝ) / S * ((b.rad : ℝ) / S) := by
    rw [abs_mul]
    exact mul_le_mul ha hb (abs_nonneg _) (by positivity)
  have e1 : |x * y - (a.mid : ℝ) / S * ((b.mid : ℝ) / S)| ≤
      (|(a.mid : ℝ)| * (b.rad : ℝ) + |(b.mid : ℝ)| * (a.rad : ℝ) +
        (a.rad : ℝ) * (b.rad : ℝ)) / S ^ 2 := by
    rw [key]
    calc |(a.mid : ℝ) / S * (y - (b.mid : ℝ) / S) +
          (b.mid : ℝ) / S * (x - (a.mid : ℝ) / S) +
          (x - (a.mid : ℝ) / S) * (y - (b.mid : ℝ) / S)| ≤
        |(a.mid : ℝ) / S * (y - (b.mid : ℝ) / S) +
          (b.mid : ℝ) / S * (x - (a.mid : ℝ) / S)| +
        |(x - (a.mid : ℝ) / S) * (y - (b.mid : ℝ) / S)| := abs_add _ _
    _ ≤ |(a.mid : ℝ) / S * (y - (b.mid : ℝ) / S)| +
          |(b.mid : ℝ) / S * (x - (a.mid : ℝ) / S)| +
        |(x - (a.mid : ℝ) / S) * (y - (b.mid : ℝ) / S)| := by
        have := abs_add ((a.mid : ℝ) / S * (y - (b.mid : ℝ) / S))
          ((b.mid : ℝ) / S * (x - (a.mid : ℝ) / S))
        linarith
    _ ≤ |(a.mid : ℝ)| / S * ((b.rad : ℝ) / S) + |(b.mid : ℝ)| / S * ((a.rad : ℝ) / S) +
        (a.rad : ℝ) / S * ((b.rad : ℝ) / S) := by linarith
    _ = (|(a.mid : ℝ)| * (b.rad : ℝ) + |(b.mid : ℝ)| * (a.rad : ℝ) +
        (a.rad : ℝ) * (b.rad : ℝ)) / S ^ 2 := by ring
  obtain ⟨d1, d2⟩ := ediv_cast_bounds (a.mid * b.mid) hSpos
  obtain ⟨g1, g2⟩ :=
    ediv_cast_bounds (iabs a.mid * b.rad + iabs b.mid * a.rad + a.rad * b.rad) hSpos
  have hcastE : ((iabs a.mid * b.rad + iabs b.mid * a.rad + a.rad * b.rad : ℤ) : ℝ) =
      |(a.mid : ℝ)| * (b.rad : ℝ) + |(b.mid : ℝ)| * (a.rad : ℝ) +
        (a.rad : ℝ) * (b.rad : ℝ) := by
    rw [iabs_eq, iabs_eq]
    push_cast
    ring
  have hcastAB : ((a.mid * b.mid : ℤ) : ℝ) = (a.mid : ℝ) * (b.mid : ℝ) := by push_cast; ring
  rw [hcastAB] at d1 d2
  rw [hcastE] at g1 g2
  rw [← hSdef] at d1 d2 g1 g2
  have habs2 : |x * y - ((a.mid * b.mid / ballScale : ℤ) : ℝ) / S| ≤
      |x * y - (a.mid : ℝ) / S * ((b.mid : ℝ) / S)| +
      |(a.mid : ℝ) / S * ((b.mid : ℝ) / S) - ((a.mid * b.mid / ballScale : ℤ) : ℝ) / S| :=
    abs_sub_le _ _ _
  have hmid : |(a.mid : ℝ) / S * ((b.mid : ℝ) / S) -
      ((a.mid * b.mid / ballScale : ℤ) : ℝ) / S| ≤ 1 / S := by
    have heq : (a.mid : ℝ) / S * ((b.mid : ℝ) / S) -
        ((a.mid * b.mid / ballScale : ℤ) : ℝ) / S =
        ((a.mid : ℝ) * (b.mid : ℝ) / S - ((a.mid * b.mid / ballScale : ℤ) : ℝ)) / S := by
      ring
    rw [heq, abs_le]
    constructor
    · have h0 : (0 : ℝ) ≤
          ((a.mid : ℝ) * (b.mid : ℝ) / S - ((a.mid * b.mid / ballScale : ℤ) : ℝ)) / S :=
        div_nonneg (by linarith) hS.le
      have h1 : (0 : ℝ) < 1 / S := by positivity
      linarith
    · rw [div_le_div_iff hS hS]
      nlinarith [d2, hS]
  have hE2 : (|(a.mid : ℝ)| * (b.rad : ℝ) + |(b.mid : ℝ)| * (a.rad : ℝ) +
      (a.rad : ℝ) * (b.rad : ℝ)) / S ^ 2 ≤
      (((iabs a.mid * b.rad + iabs b.mid * a.rad + a.rad * b.rad) / ballScale : ℤ) : ℝ) / S +
        1 / S := by
    have heq : (|(a.mid : ℝ)| * (b.rad : ℝ) + |(b.mid : ℝ)| * (a.rad : ℝ) +
        (a.rad : ℝ) * (b.rad : ℝ)) / S ^ 2 =
        ((|(a.mid : ℝ)| * (b.rad : ℝ) + |(b.mid : ℝ)| * (a.rad : ℝ) +
          (a.rad : ℝ) * (b.rad : ℝ)) / S) / S := by ring
    rw [heq]
    have h4 : (|(a.mid : ℝ)| * (b.rad : ℝ) + |(b.mid : ℝ)| * (a.rad : ℝ) +
        (a.rad : ℝ) * (b.rad : ℝ)) / S ≤
        (((iabs a.mid * b.rad + iabs b.mid * a.rad + a.rad * b.rad) / ballScale : ℤ) : ℝ) + 1 :=
      by linarith
    calc (|(a.mid : ℝ)| * (b.rad : ℝ) + |(b.mid : ℝ)| * (a.rad : ℝ) +
        (a.rad : ℝ) * (b.rad : ℝ)) / S / S ≤
        ((((iabs a.mid * b.rad + iabs b.mid * a.rad + a.rad * b.rad) / ballScale : ℤ) : ℝ) + 1)
          / S := by
          rw [div_le_div_iff hS hS]
          nlinarith [h4, hS]
    _ = (((iabs a.mid * b.rad + iabs b.mid * a.rad + a.rad * b.rad) / ballScale : ℤ) : ℝ) / S +
        1 / S := by ring
  have target_eq :
      (((iabs a.mid * b.rad + iabs b.mid * a.rad + a.rad * b.rad) / ballScale + 2 : ℤ) : ℝ) / S =
      (((iabs a.mid * b.rad + iabs b.mid * a.rad + a.rad * b.rad) / ballScale : ℤ) : ℝ) / S +
        1 / S + 1 / S := by
    push_cast
    ring
  rw [target_eq]
  linarith [habs2, e1, hmid, hE2]

/-- Helper: soundness of complex-ball addition. -/
theorem inCBall_add {z w : ℂ} {a b : CBall} (hz : inCBall z a) (hw : inCBall w b) :
    inCBall (z + w) (a.add b) :=
  ⟨by rw [Complex.add_re]; exact inBall_add hz.1 hw.1,
   by rw [Complex.add_im]; exact inBall_add hz.2 hw.2⟩

/-- Helper: soundness of complex-ball subtraction. -/
theorem inCBall_sub {z w : ℂ} {a b : CBall} (hz : inCBall z a) (hw : inCBall w b) :
    inCBall (z - w) (a.sub b) :=
  ⟨by rw [Complex.sub_re]; exact inBall_sub hz.1 hw.1,
   by rw [Complex.sub_im]; exact inBall_sub hz.2 hw.2⟩

/-- Helper: soundness of complex-ball multiplication. -/
theorem inCBall_mul {z w : ℂ} {a b : CBall} (hz : inCBall z a) (hw : inCBall w b) :
    inCBall (z * w) (a.mul b) :=
  ⟨by
    rw [Complex.mul_re]
    exact inBall_sub (inBall_mul hz.1 hw.1) (inBall_mul hz.2 hw.2),
   by
    rw [Complex.mul_im]
    exact inBall_add (inBall_mul hz.1 hw.2) (inBall_mul hz.2 hw.1)⟩

/-- Helper: soundness of the real-scalar times complex-ball product. -/
theorem inCBall_rsmul {r : ℝ} {z : ℂ} {rb : Ball} {zb : CBall}
    (hr : inBall r rb) (hz : inCBall z zb) :
    inCBall ((r : ℂ) * z) (CBall.rsmul rb zb) := by
  constructor
  · have h : ((r : ℂ) * z).re = r * z.re := by
      rw [Complex.mul_re, Complex.ofReal_re, Complex.ofReal_im]
      ring
    rw [h]
    exact inBall_mul hr hz.1
  · have h : ((r : ℂ) * z).im = r * z.im := by
      rw [Complex.mul_im, Complex.ofReal_re, Complex.ofReal_im]
      ring
    rw [h]
    exact inBall_mul hr hz.2

/-- Helper: a `within_tol` certificate transfers to any member of the
ball: it is within `10^-6` of `p / 10^19`. -/
theorem within_tol_sound (x : ℝ) (b : Ball) (p : ℤ) (hx : inBall x b)
    (hc : within_tol b p) : |x - (p : ℝ) / 10 ^ 19| ≤ 1 / 10 ^ 6 := by
  have hS := ballScale_pos
  unfold within_tol at hc
  unfold inBall at hx
  rw [iabs_eq] at hc
  have hcR : |(b.mid : ℝ) * 10 ^ 19 - (p : ℝ) * ((ballScale : ℤ) : ℝ)| * 10 ^ 6 +
      (b.rad : ℝ) * 10 ^ 19 * 10 ^ 6 ≤ ((ballScale : ℤ) : ℝ) * 10 ^ 19 := by
    exact_mod_cast hc
  have htri : |x - (p : ℝ) / 10 ^ 19| ≤
      |x - (b.mid : ℝ) / ((ballScale : ℤ) : ℝ)| +
      |(b.mid : ℝ) / ((ballScale : ℤ) : ℝ) - (p : ℝ) / 10 ^ 19| := abs_sub_le _ _ _
  have hmid : |(b.mid : ℝ) / ((ballScale : ℤ) : ℝ) - (p : ℝ) / 10 ^ 19| =
      |(b.mid : ℝ) * 10 ^ 19 - (p : ℝ) * ((ballScale : ℤ) : ℝ)| /
        (((ballScale : ℤ) : ℝ) * 10 ^ 19) := by
    rw [div_sub_div _ _ (ne_of_gt hS) (by norm_num : (10 : ℝ) ^ 19 ≠ 0), abs_div,
      abs_of_pos (show (0 : ℝ) < ((ballScale : ℤ) : ℝ) * 10 ^ 19 by positivity)]
    ring_nf
  rw [hmid] at htri
  have hrw : (b.rad : ℝ) / ((ballScale : ℤ) : ℝ) =
      (b.rad : ℝ) * 10 ^ 19 / (((ballScale : ℤ) : ℝ) * 10 ^ 19) := by
    rw [mul_div_mul_right _ _ (by norm_num : (10 : ℝ) ^ 19 ≠ 0)]
  have hfin : |(b.mid : ℝ) * 10 ^ 19 - (p : ℝ) * ((ballScale : ℤ) : ℝ)| /
        (((ballScale : ℤ) : ℝ) * 10 ^ 19) +
      (b.rad : ℝ) / ((ballScale : ℤ) : ℝ) ≤ 1 / 10 ^ 6 := by
    rw [hrw, div_add_div_same, div_le_div_iff (by positivity) (by norm_num : (0 : ℝ) < 10 ^ 6)]
    nlinarith [hcR]
  linarith [htri, hx, hfin]

/-- Helper: a `beyond_tol` certificate transfers to any member of the
ball: it is farther than `10^-6` from `p / 10^19`. -/
theorem beyond_tol_sound (x : ℝ) (b : Ball) (p : ℤ) (hx : inBall x b)
    (hc : beyond_tol b p) : 1 / 10 ^ 6 < |x - (p : ℝ) / 10 ^ 19| := by
  have hS := ballScale_pos
  unfold beyond_tol at hc
  unfold inBall at hx
  rw [iabs_eq] at hc
  have hcR : ((ballScale : ℤ) : ℝ) * 10 ^ 19 <
      |(b.mid : ℝ) * 10 ^ 19 - (p : ℝ) * ((ballScale : ℤ) : ℝ)| * 10 ^ 6 -
        (b.rad : ℝ) * 10 ^ 19 * 10 ^ 6 := by
    exact_mod_cast hc
  have htri : |(b.mid : ℝ) / ((ballScale : ℤ) : ℝ) - (p : ℝ) / 10 ^ 19| ≤
      |(b.mid : ℝ) / ((ballScale : ℤ) : ℝ) - x| + |x - (p : ℝ) / 10 ^ 19| := abs_sub_le _ _ _
  have hmid : |(b.mid : ℝ) / ((ballScale : ℤ) : ℝ) - (p : ℝ) / 10 ^ 19| =
      |(b.mid : ℝ) * 10 ^ 19 - (p : ℝ) * ((ballScale : ℤ) : ℝ)| /
        (((ballScale : ℤ) : ℝ) * 10 ^ 19) := by
    rw [div_sub_div _ _ (ne_of_gt hS) (by norm_num : (10 : ℝ) ^ 19 ≠ 0), abs_div,
      abs_of_pos (show (0 : ℝ) < ((ballScale : ℤ) : ℝ) * 10 ^ 19 by positivity)]
    ring_nf
  have hsym : |(b.mid : ℝ) / ((ballScale : ℤ) : ℝ) - x| =
      |x - (b.mid : ℝ) / ((ballScale : ℤ) : ℝ)| := abs_sub_comm _ _
  rw [hmid, hsym] at htri
  have hrw : (b.rad : ℝ) / ((ballScale : ℤ) : ℝ) =
      (b.rad : ℝ) * 10 ^ 19 / (((ballScale : ℤ) : ℝ) * 10 ^ 19) := by
    rw [mul_div_mul_right _ _ (by norm_num : (10 : ℝ) ^ 19 ≠ 0)]
  have hfin : 1 / 10 ^ 6 <
      |(b.mid : ℝ) * 10 ^ 19 - (p : ℝ) * ((ballScale : ℤ) : ℝ)| /
        (((ballScale : ℤ) : ℝ) * 10 ^ 19) -
      (b.rad : ℝ) / ((ballScale : ℤ) : ℝ) := by
    rw [hrw, div_sub_div_same,
      div_lt_div_iff (by norm_num : (0 : ℝ) < 10 ^ 6) (by positivity)]
    nlinarith [hcR]
  linarith [htri, hx, hfin]

/-- Helper: a rational bracket for a real square root. -/
theorem sqrt_bracket {x a b : ℝ} (ha : 0 ≤ a) (h1 : a ^ 2 ≤ x) (h2 : x ≤ b ^ 2)
    (hb : 0 ≤ b) : a ≤ Real.sqrt x ∧ Real.sqrt x ≤ b :=
  ⟨(Real.le_sqrt ha (le_trans (by positivity) h1)).mpr h1,
   Real.sqrt_le_iff.mpr ⟨hb, h2⟩⟩

/-- Helper: bracket for `sqrtTwoAddSeries 0 1 = √2`. -/
theorem series_bound_1 :
    (398065729532860 : ℝ) / 281474976710656 ≤ Real.sqrtTwoAddSeries 0 1 ∧
    Real.sqrtTwoAddSeries 0 1 ≤ (398065729532861 : ℝ) / 281474976710656 := by
  have h0 : Real.sqrtTwoAddSeries 0 1 = Real.sqrt (2 + Real.sqrtTwoAddSeries 0 0) := rfl
  rw [h0, Real.sqrtTwoAddSeries_zero]
  exact sqrt_bracket (by norm_num) (by norm_num) (by norm_num) (by norm_num)

/-- Helper: bracket for `sqrtTwoAddSeries 0 2`. -/
theorem series_bound_2 :
    (520097939794132 : ℝ) / 281474976710656 ≤ Real.sqrtTwoAddSeries 0 2 ∧
    Real.sqrtTwoAddSeries 0 2 ≤ (520097939794133 : ℝ) / 281474976710656 := by
  have h0 : Real.sqrtTwoAddSeries 0 2 = Real.sqrt (2 + Real.sqrtTwoAddSeries 0 1) := rfl
  obtain ⟨hl, hu⟩ := series_bound_1
  rw [h0]
  refine sqrt_bracket (by norm_num) ?_ ?_ (by norm_num)
  · have h : ((520097939794132 : ℝ) / 281474976710656) ^ 2 ≤
        2 + (398065729532860 : ℝ) / 281474976710656 := by norm_num
    linarith
  · have h : (2 : ℝ) + (398065729532861 : ℝ) / 281474976710656 ≤
        ((520097939794133 : ℝ) / 281474976710656) ^ 2 := by norm_num
    linarith

/-- Helper: bracket for `sqrtTwoAddSeries 0 3`. -/
theorem series_bound_3 :
    (552133027919306 : ℝ) / 281474976710656 ≤ Real.sqrtTwoAddSeries 0 3 ∧
    Real.sqrtTwoAddSeries 0 3 ≤ (552133027919308 : ℝ) / 281474976710656 := by
  have h0 : Real.sqrtTwoAddSeries 0 3 = Real.sqrt (2 + Real.sqrtTwoAddSeries 0 2) := rfl
  obtain ⟨hl, hu⟩ := series_bound_2
  rw [h0]
  refine sqrt_bracket (by norm_num) ?_ ?_ (by norm_num)
  · have h : ((552133027919306 : ℝ) / 281474976710656) ^ 2 ≤
        2 + (520097939794132 : ℝ) / 281474976710656 := by norm_num
    linarith
  · have h : (2 : ℝ) + (520097939794133 : ℝ) / 281474976710656 ≤
        ((552133027919308 : ℝ) / 281474976710656) ^ 2 := by norm_num
    linarith

/-- Helper: bracket for `sqrtTwoAddSeries 0 4`. -/
theorem series_bound_4 :
    (560239195525714 : ℝ) / 281474976710656 ≤ Real.sqrtTwoAddSeries 0 4 ∧
    Real.sqrtTwoAddSeries 0 4 ≤ (560239195525715 : ℝ) / 281474976710656 := by
  have h0 : Real.sqrtTwoAddSeries 0 4 = Real.sqrt (2 + Real.sqrtTwoAddSeries 0 3) := rfl
  obtain ⟨hl, hu⟩ := series_bound_3
  rw [h0]
  refine sqrt_bracket (by norm_num) ?_ ?_ (by norm_num)
  · have h : ((560239195525714 : ℝ) / 281474976710656) ^ 2 ≤
        2 + (552133027919306 : ℝ) / 281474976710656 := by norm_num
    linarith
  · have h : (2 : ℝ) + (552133027919308 : ℝ) / 281474976710656 ≤
        ((560239195525715 : ℝ) / 281474976710656) ^ 2 := by norm_num
    linarith

/-- Helper: bracket for `sqrtTwoAddSeries 0 5`. -/
theorem series_bound_5 :
    (562271855548119 : ℝ) / 281474976710656 ≤ Real.sqrtTwoAddSeries 0 5 ∧
    Real.sqrtTwoAddSeries 0 5 ≤ (562271855548121 : ℝ) / 281474976710656 := by
  have h0 : Real.sqrtTwoAddSeries 0 5 = Real.sqrt (2 + Real.sqrtTwoAddSeries 0 4) := rfl
  obtain ⟨hl, hu⟩ := series_bound_4
  rw [h0]
  refine sqrt_bracket (by norm_num) ?_ ?_ (by norm_num)
  · have h : ((562271855548119 : ℝ) / 281474976710656) ^ 2 ≤
        2 + (560239195525714 : ℝ) / 281474976710656 := by norm_num
    linarith
  · have h : (2 : ℝ) + (560239195525715 : ℝ) / 281474976710656 ≤
        ((562271855548121 : ℝ) / 281474976710656) ^ 2 := by norm_num
    linarith

/-- Helper: the hardcoded enclosure of `cos (π/64)` is sound, via
`cos (π/2^6) = sqrtTwoAddSeries 0 5 / 2`. -/
theorem cos_step_sound : inBall (Real.cos (Real.pi / 64)) cos_step := by
  have hc : Real.cos (Real.pi / 64) = Real.sqrtTwoAddSeries 0 5 / 2 := by
    rw [show (64 : ℝ) = 2 ^ (5 + 1) by norm_num]
    exact Real.cos_pi_over_two_pow 5
  obtain ⟨hl, hu⟩ := series_bound_5
  unfold inBall
  show |Real.cos (Real.pi / 64) - ((281135927774060 : ℤ) : ℝ) / ((ballScale : ℤ) : ℝ)| ≤
    ((2 : ℤ) : ℝ) / ((ballScale : ℤ) : ℝ)
  rw [hc, ballScale_cast, abs_le]
  constructor
  · have hn : (281135927774060 : ℝ) / 281474976710656 - 2 / 281474976710656 ≤
        (562271855548119 : ℝ) / 281474976710656 / 2 := by norm_num
    push_cast
    linarith
  · have hn : (562271855548121 : ℝ) / 281474976710656 / 2 ≤
        (281135927774060 : ℝ) / 281474976710656 + 2 / 281474976710656 := by norm_num
    push_cast
    linarith

/-- Helper: the hardcoded enclosure of `sin (π/64)` is sound, via
`sin (π/2^6) = √(2 - sqrtTwoAddSeries 0 4) / 2`. -/
theorem sin_step_sound : inBall (Real.sin (Real.pi / 64)) sin_step := by
  have hs : Real.sin (Real.pi / 64) = Real.sqrt (2 - Real.sqrtTwoAddSeries 0 4) / 2 := by
    rw [show (64 : ℝ) = 2 ^ (4 + 2) by norm_num]
    exact Real.sin_pi_over_two_pow_succ 4
  obtain ⟨hl, hu⟩ := series_bound_4
  have hsq : (27622644977108 : ℝ) / 281474976710656 ≤
      Real.sqrt (2 - Real.sqrtTwoAddSeries 0 4) ∧
      Real.sqrt (2 - Real.sqrtTwoAddSeries 0 4) ≤
        (27622644977114 : ℝ) / 281474976710656 := by
    refine sqrt_bracket (by norm_num) ?_ ?_ (by norm_num)
    · have h : ((27622644977108 : ℝ) / 281474976710656) ^ 2 ≤
          2 - (560239195525715 : ℝ) / 281474976710656 := by norm_num
      linarith
    · have h : (2 : ℝ) - (560239195525714 : ℝ) / 281474976710656 ≤
          ((27622644977114 : ℝ) / 281474976710656) ^ 2 := by norm_num
      linarith
  obtain ⟨hl2, hu2⟩ := hsq
  unfold inBall
  show |Real.sin (Real.pi / 64) - ((13811322488555 : ℤ) : ℝ) / ((ballScale : ℤ) : ℝ)| ≤
    ((2 : ℤ) : ℝ) / ((ballScale : ℤ) : ℝ)
  rw [hs, ballScale_cast, abs_le]
  constructor
  · have hn : (13811322488555 : ℝ) / 281474976710656 - 2 / 281474976710656 ≤
        (27622644977108 : ℝ) / 281474976710656 / 2 := by norm_num
    push_cast
    linarith
  · have hn : (27622644977114 : ℝ) / 281474976710656 / 2 ≤
        (13811322488555 : ℝ) / 281474976710656 + 2 / 281474976710656 := by norm_num
    push_cast
    linarith

/-- Helper: soundness of the cosine/sine recurrence enclosures: `csb k`
encloses `(cos (k·π/64), sin (k·π/64))`. -/
theorem csb_sound : ∀ k : ℕ,
    inBall (Real.cos ((k : ℝ) * (Real.pi / 64))) (csb k).1 ∧
    inBall (Real.sin ((k : ℝ) * (Real.pi / 64))) (csb k).2 := by
  intro k
  induction k with
  | zero =>
    constructor
    · show inBall (Real.cos ((0 : ℕ) * (Real.pi / 64))) ⟨ballScale, 0⟩
      unfold inBall
      rw [ballScale_cast]
      norm_num
    · show inBall (Real.sin ((0 : ℕ) * (Real.pi / 64))) ⟨0, 0⟩
      unfold inBall
      rw [ballScale_cast]
      norm_num
  | succ n ih =>
    have hang : ((n + 1 : ℕ) : ℝ) * (Real.pi / 64) =
        (n : ℝ) * (Real.pi / 64) + Real.pi / 64 := by
      push_cast
      ring
    constructor
    · rw [hang, Real.cos_add]
      exact inBall_sub (inBall_mul ih.1 cos_step_sound) (inBall_mul ih.2 sin_step_sound)
    · rw [hang, Real.sin_add]
      exact inBall_add (inBall_mul ih.2 cos_step_sound) (inBall_mul ih.1 sin_step_sound)

/-- Helper: a complex ball for `exp(iθ)` from balls for `cos θ` and
`sin θ`. -/
theorem exp_ball {θ : ℝ} {cb sb : Ball} (hc : inBall (Real.cos θ) cb)
    (hs : inBall (Real.sin θ) sb) :
    inCBall (Complex.exp (Complex.I * (θ : ℂ))) ⟨cb, sb⟩ := by
  constructor
  · show inBall (Complex.exp (Complex.I * (θ : ℂ))).re cb
    rw [mul_comm, Complex.exp_ofReal_mul_I_re]
    exact hc
  · show inBall (Complex.exp (Complex.I * (θ : ℂ))).im sb
    rw [mul_comm, Complex.exp_ofReal_mul_I_im]
    exact hs

/-- Helper: quantized angles with bit sizes `(6, 4)` are odd multiples of
`π/64`. -/
theorem quant_angle (q : ℕ) :
    (q : ℝ) * (Real.pi / 2 ^ 5) + Real.pi / 2 ^ 6 =
      ((2 * q + 1 : ℕ) : ℝ) * (Real.pi / 64) := by
  rw [show (2 : ℝ) ^ 5 = 32 by norm_num, show (2 : ℝ) ^ 6 = 64 by norm_num]
  push_cast
  ring

/-- Helper: the D-factor step preserves pointwise enclosure. -/
theorem cmatch_apply_d {A : ℕ → ℕ → ℂ} {m : ℕ → ℕ → CBall} (h : CMatch A m)
    {θ : ℝ} {eb : CBall} (he : inCBall (Complex.exp (Complex.I * (θ : ℂ))) eb)
    (pos : ℕ) :
    CMatch (apply_d_inplace A pos θ) (ball_apply_d m pos eb) := by
  intro r c
  unfold apply_d_inplace ball_apply_d
  by_cases hc : c = pos
  · rw [if_pos hc, if_pos hc]
    exact inCBall_mul (h r c) he
  · rw [if_neg hc, if_neg hc]
    exact h r c

/-- Helper: the Givens step preserves pointwise enclosure. -/
theorem cmatch_apply_givens {A : ℕ → ℕ → ℂ} {m : ℕ → ℕ → CBall} (h : CMatch A m)
    {θ : ℝ} {cb sb : Ball} (hcos : inBall (Real.cos θ) cb)
    (hsin : inBall (Real.sin θ) sb) (i j : ℕ) :
    CMatch (apply_givens_inplace A i j θ) (ball_apply_givens m i j (cb, sb)) := by
  intro r c
  unfold apply_givens_inplace ball_apply_givens
  by_cases h1 : c = j
  · rw [if_pos h1, if_pos h1]
    exact inCBall_add (inCBall_rsmul hsin (h r i)) (inCBall_rsmul hcos (h r j))
  · rw [if_neg h1, if_neg h1]
    by_cases h2 : c = i
    · rw [if_pos h2, if_pos h2]
      exact inCBall_sub (inCBall_rsmul hcos (h r i)) (inCBall_rsmul hsin (h r j))
    · rw [if_neg h2, if_neg h2]
      exact h r c

/-- Helper: the whole pattern fold is enclosed by its ball evaluation, for
the `(6, 4)` bit-size constants (both Phi and Psi quantize to odd multiples
of `π/64`). -/
theorem ball_run_cmatch :
    ∀ (pat : List (Angles × ℕ × ℕ)) (qs : List ℕ) (A : ℕ → ℕ → ℂ)
      (m : ℕ → ℕ → CBall), CMatch A m →
      CMatch (run_pattern (Real.pi / 2 ^ 5) (Real.pi / 2 ^ 6) (Real.pi / 2 ^ 5)
        (Real.pi / 2 ^ 6) pat qs A) (ball_run pat qs m) := by
  intro pat
  induction pat with
  | nil => intro qs A m h; cases qs <;> exact h
  | cons hd ps ih =>
    obtain ⟨kind, nr, nc⟩ := hd
    intro qs A m h
    cases qs with
    | nil => cases kind <;> exact h
    | cons q qs' =>
      cases kind with
      | Phi =>
        simp only [run_pattern, ball_run]
        refine ih qs' _ _ (cmatch_apply_d h ?_ (nr - 1))
        have hq := csb_sound (2 * q + 1)
        have he := exp_ball hq.1 hq.2
        rw [show ((((2 * q + 1 : ℕ) : ℝ) * (Real.pi / 64) : ℝ) : ℂ) =
          (((q : ℝ) * (Real.pi / 2 ^ 5) + Real.pi / 2 ^ 6 : ℝ) : ℂ) by
            rw [quant_angle]] at he
        exact he
      | Psi =>
        simp only [run_pattern, ball_run]
        refine ih qs' _ _ (cmatch_apply_givens h ?_ ?_ (nr - 1) (nc - 1))
        · rw [quant_angle]
          exact (csb_sound (2 * q + 1)).1
        · rw [quant_angle]
          exact (csb_sound (2 * q + 1)).2

/-- Helper: the identity matrix is enclosed by `ball_eye`. -/
theorem eye_cmatch : CMatch (fun i j => if i = j then (1 : ℂ) else 0) ball_eye := by
  intro r c
  show inCBall (if r = c then (1 : ℂ) else 0) (ball_eye r c)
  unfold ball_eye
  by_cases h : r = c
  · rw [if_pos h, if_pos h]
    constructor
    · show inBall (1 : ℂ).re ⟨ballScale, 0⟩
      unfold inBall
      rw [Complex.one_re, ballScale_cast]
      norm_num
    · show inBall (1 : ℂ).im ⟨0, 0⟩
      unfold inBall
      rw [Complex.one_im, ballScale_cast]
      norm_num
  · rw [if_neg h, if_neg h]
    constructor
    · show inBall (0 : ℂ).re ⟨0, 0⟩
      unfold inBall
      rw [Complex.zero_re, ballScale_cast]
      norm_num
    · show inBall (0 : ℂ).im ⟨0, 0⟩
      unfold inBall
      rw [Complex.zero_im, ballScale_cast]
      norm_num

/-- C9: `StreamBee::stop` on a running engine with both writer workers: it
joins and clears the capture thread and the BFA writer and clears the
nectar and pollen sinks, but leaves the BFM writer's join handle and the
honey sink sender in place — the BFM writer worker is never joined (and its
channel never observes closure while the engine lives on). -/
theorem c9_stop_leaves_bfm_writer_unjoined :
    (StreamBee.stop c9_running_engine).running = false ∧
    (StreamBee.stop c9_running_engine).harvester = none ∧
    (StreamBee.stop c9_running_engine).bfa_file_writer = none ∧
    (StreamBee.stop c9_running_engine).nectar_sink = none ∧
    (StreamBee.stop c9_running_engine).pollen_sink = none ∧
    (StreamBee.stop c9_running_engine).bfm_file_writer = some 6 ∧
    (StreamBee.stop c9_running_engine).honey_sink = some 3 := by
  decide

/-- Helper: inside the dimension guard, the Frame-1 feedback matrix is the
raw identity-seeded pattern fold with the `(6, 4)` quantization constants. -/
theorem frame1_bfm_matrix (r c k : ℕ) (h : r < 4 ∧ c < 2 ∧ k < 3) :
    frame1_bfm.feedback_matrix r c k =
      run_pattern (Real.pi / 2 ^ 5) (Real.pi / 2 ^ 6) (Real.pi / 2 ^ 5)
        (Real.pi / 2 ^ 6) (ANGLE_PATTERNS.getD 4 [])
        (frame1_bfa.bfa_angles.getD k []) (fun i j => if i = j then 1 else 0)
        r c := by
  have he : frame1_bfm.feedback_matrix r c k =
      if r < 4 ∧ c < 2 ∧ k < 3 then
        run_pattern (Real.pi / 2 ^ 5) (Real.pi / 2 ^ 6) (Real.pi / 2 ^ 5)
          (Real.pi / 2 ^ 6) (ANGLE_PATTERNS.getD 4 [])
          (frame1_bfa.bfa_angles.getD k []) (fun i j => if i = j then 1 else 0)
          r c
      else 0 := rfl
  rw [he, if_pos h]

/-- Helper: every Frame-1 fold entry lies in the corresponding entry of the
integer ball evaluation. -/
theorem frame1_ball (k r c : ℕ) :
    inCBall (run_pattern (Real.pi / 2 ^ 5) (Real.pi / 2 ^ 6) (Real.pi / 2 ^ 5)
        (Real.pi / 2 ^ 6) (ANGLE_PATTERNS.getD 4 [])
        (frame1_bfa.bfa_angles.getD k []) (fun i j => if i = j then 1 else 0)
        r c)
      (ball_run (ANGLE_PATTERNS.getD 4 [])
        (frame1_bfa.bfa_angles.getD k []) ball_eye r c) :=
  ball_run_cmatch (ANGLE_PATTERNS.getD 4 [])
    (frame1_bfa.bfa_angles.getD k []) _ _ eye_cmatch r c

/-- C1: counterexample to the spec's literal expected table at the claimed
`1e-6` tolerance: `to_bfm` succeeds on the S4 / Frame-1 record, but the
spec's 5-decimal rounding `0.80321` of `V[3, 0, 0].re` is off by about
`2.47e-6` from the computed entry (whose true value is `0.8032075314...`),
beyond the claimed `1e-6` absolute tolerance. -/
theorem c1_counterexample :
    to_bfm frame1_bfa = .ok (some frame1_bfm) ∧
    1 / 10 ^ 6 < |(frame1_bfm.feedback_matrix 3 0 0).re - (0.80321 : ℝ)| := by
  refine ⟨rfl, ?_⟩
  have hb := frame1_ball 0 3 0
  rw [frame1_bfm_matrix 3 0 0 (by norm_num)]
  have hp : (0.80321 : ℝ) = ((8032100000000000000 : ℤ) : ℝ) / 10 ^ 19 := by
    norm_num
  rw [hp]
  exact beyond_tol_sound _ _ _ hb.1 (by decide)

/-- C1 (amended): on the S4 / Frame-1 record `to_bfm` succeeds, and every
entry of the returned `4×2×3` matrix matches the full-precision literal
table of `test_to_bfm_frame1` (held in `frame1_expected_re`/`_im`, scaled
by `10^19`) within `1e-6` absolute tolerance on real and imaginary parts;
each Phi angle is `q·π/2^(phi_bit-1) + π/2^phi_bit` and each Psi angle is
`q·π/2^(psi_bit+1) + π/2^(psi_bit+2)` with `(phi_bit, psi_bit) = (6, 4)`,
applied to an identity seed in pattern order and truncated to the first
`num_spatial` columns.  (The spec's own 5-decimal rounded values are only
accurate to about `5e-6`, see the counterexample.) -/
theorem c1_frame1_entries (r c k : ℕ) (hr : r < 4) (hc : c < 2) (hk : k < 3) :
    to_bfm frame1_bfa = .ok (some frame1_bfm) ∧
    |(frame1_bfm.feedback_matrix r c k).re -
        (frame1_expected_re r c k : ℝ) / 10 ^ 19| ≤ 1 / 10 ^ 6 ∧
    |(frame1_bfm.feedback_matrix r c k).im -
        (frame1_expected_im r c k : ℝ) / 10 ^ 19| ≤ 1 / 10 ^ 6 := by
  have hb := frame1_ball k r c
  refine ⟨rfl, ?_, ?_⟩
  · rw [frame1_bfm_matrix r c k ⟨hr, hc, hk⟩]
    refine within_tol_sound _ _ _ hb.1 ?_
    interval_cases k <;> interval_cases r <;> interval_cases c <;> decide
  · rw [frame1_bfm_matrix r c k ⟨hr, hc, hk⟩]
    refine within_tol_sound _ _ _ hb.2 ?_
    interval_cases k <;> interval_cases r <;> interval_cases c <;> decide

/-- Witness for `c1_frame1_entries`: the entry `V[0, 0, 0]`. -/
theorem c1_frame1_entries_witness :
    to_bfm frame1_bfa = .ok (some frame1_bfm) ∧
    |(frame1_bfm.feedback_matrix 0 0 0).re -
        (frame1_expected_re 0 0 0 : ℝ) / 10 ^ 19| ≤ 1 / 10 ^ 6 ∧
    |(frame1_bfm.feedback_matrix 0 0 0).im -
        (frame1_expected_im 0 0 0 : ℝ) / 10 ^ 19| ≤ 1 / 10 ^ 6 :=
  c1_frame1_entries 0 0 0 (by norm_num) (by norm_num) (by norm_num)

/-- C8: counterexample to "every per-subcarrier matrix has zero imaginary
part throughout its last column": on the S4 / Frame-1 record the conversion
succeeds and the last-column entry `V[0, 1, 0]` has imaginary part about
`0.33295`, not zero.  (What does hold is that the last ROW is real, see
`c8_last_row_real`.) -/
theorem c8_counterexample :
    to_bfm frame1_bfa = .ok (some frame1_bfm) ∧
    (frame1_bfm.feedback_matrix 0 1 0).im ≠ 0 := by
  refine ⟨rfl, ?_⟩
  have hb := frame1_ball 0 0 1
  have h := beyond_tol_sound _ _ (0 : ℤ) hb.2 (by decide)
  intro h0
  rw [frame1_bfm_matrix 0 1 0 (by norm_num)] at h0
  rw [h0] at h
  norm_num at h

end BeeFI

